import Mathlib

/-!
# llm-webtransport: framing codec, LLM stream adapter, servers and benchmark

A shallow embedding of the Go sources of the repository:

* `message/message.go`   — `message.Read`, `message.Write`
* `llm/llm.go`           — `StreamChatCompletion`
* `server/handlers.go`   — the per-stream handler of `handleSession`
* `httpserver/main.go`   — `handleChat`
* `benchmark/main.go`    — `webtransportRunner.Run`, `rawAPIRunner.Run`,
  `httpSSERunner.Run`, `percentile`

Conventions.  A Go `string` / `[]byte` is a list of bytes, each byte a natural
number below 256.  Go `int` is the 64-bit signed integer; values are kept in
`Int` and the places where the 64-bit range matters (`strconv.Atoi`) test it
explicitly.  A reader over a stream is the list of bytes not yet consumed, the
stream ending in a clean end-of-file.
-/

namespace LlmWebtransport

/-- A Go string or byte slice. -/
abbrev Bytes := List Nat

/-- The bytes of an ASCII text. -/
def ascii (s : String) : Bytes := s.data.map Char.toNat

deriving instance DecidableEq for Except

/-! ## Go standard library: `strconv` -/

namespace strconv

/-- The two causes carried by a `*strconv.NumError`. -/
inductive NumError where
  | ErrSyntax
  | ErrRange
deriving DecidableEq, Repr

/-- Decimal digits of `u`, most significant first (`formatBits` for base 10).
The first argument bounds the number of digits produced. -/
def formatBits : Nat → Nat → Bytes
  | 0, _ => []
  | fuel + 1, u => if u < 10 then [48 + u] else formatBits fuel (u / 10) ++ [48 + u % 10]

/-- Go `strconv.Itoa`: base-10 text of an `int`, with a leading `-` when negative. -/
def Itoa (i : Int) : Bytes :=
  if i < 0 then 45 :: formatBits (i.natAbs + 1) i.natAbs
  else formatBits (i.natAbs + 1) i.natAbs

/-- The digit loop of the fast path of `strconv.Atoi`:
`ch -= '0'` on a byte (wrapping), `ch > 9` is a syntax error,
otherwise `n = n*10 + int(ch)`. -/
def atoiLoop : Bytes → Int → Except NumError Int
  | [], n => .ok n
  | ch :: s, n =>
    let d := (ch + 256 - 48) % 256
    if d > 9 then .error .ErrSyntax else atoiLoop s (n * 10 + (d : Int))

/-- The largest `uint64`. -/
def maxUint64 : Nat := 2 ^ 64 - 1

/-- The digit loop of `strconv.ParseUint(s, 10, 64)`. -/
def parseUintLoop : Bytes → Nat → Except NumError Nat
  | [], n => .ok n
  | c :: s, n =>
    if 48 ≤ c ∧ c ≤ 57 then
      let d := c - 48
      if n ≥ maxUint64 / 10 + 1 then .error .ErrRange
      else
        let n1 := n * 10 + d
        if n1 > maxUint64 then .error .ErrRange else parseUintLoop s n1
    else .error .ErrSyntax

/-- Go `strconv.ParseUint(s, 10, 64)`. -/
def ParseUint (s : Bytes) : Except NumError Nat :=
  if s = [] then .error .ErrSyntax else parseUintLoop s 0

/-- Go `strconv.ParseInt(s, 10, 0)` on a 64-bit platform. -/
def ParseInt (s : Bytes) : Except NumError Int :=
  match s with
  | [] => .error .ErrSyntax
  | c :: t =>
    let neg := c == 45
    let s1 := if c = 43 ∨ c = 45 then t else s
    match ParseUint s1 with
    | .error e => .error e
    | .ok un =>
      if !neg ∧ un ≥ 2 ^ 63 then .error .ErrRange
      else if neg ∧ un > 2 ^ 63 then .error .ErrRange
      else .ok (if neg then -(un : Int) else (un : Int))

/-- Go `strconv.Atoi` on a 64-bit platform: the fast path for texts of 1 to 18
bytes (optional sign, then digits), `ParseInt` for the rest. -/
def Atoi (s : Bytes) : Except NumError Int :=
  if 0 < s.length ∧ s.length < 19 then
    match s with
    | [] => .error .ErrSyntax
    | c :: t =>
      let s1 := if c = 45 ∨ c = 43 then t else s
      if (c = 45 ∨ c = 43) ∧ s1.length < 1 then .error .ErrSyntax
      else
        match atoiLoop s1 0 with
        | .error e => .error e
        | .ok n => .ok (if c = 45 then -n else n)
  else ParseInt s

end strconv

/-! ## Go standard library: readers and writers -/

/-- The two `io` error values a read from a finite stream can produce. -/
inductive IOError where
  | EOF
  | ErrUnexpectedEOF
deriving DecidableEq, Repr

/-- Go `(*bufio.Reader).ReadString(delim)`: the bytes up to and including the
first `delim`; at end of stream, the bytes read so far and `io.EOF`.
Returns the text, the error and the reader after the call. -/
def ReadString (delim : Nat) : Bytes → Bytes × Option IOError × Bytes
  | [] => ([], some .EOF, [])
  | b :: r =>
    if b = delim then ([b], none, r)
    else
      let res := ReadString delim r
      (b :: res.1, res.2.1, res.2.2)

/-- Go `io.ReadFull(r, buf)` with `len(buf) = n`: exactly `n` bytes, or
`io.EOF` when no byte could be read, or `io.ErrUnexpectedEOF` after a short read. -/
def ReadFull (n : Nat) (r : Bytes) : Bytes × Option IOError × Bytes :=
  if n ≤ r.length then (r.take n, none, r.drop n)
  else if r = [] then ([], some .EOF, [])
  else (r, some .ErrUnexpectedEOF, [])

/-- A Go `error` value handled by text only (errors of the network peer, the
HTTP client, the line scanner, and those built with `fmt.Errorf`): it is
identified by what its `Error()` method returns. -/
structure GoError where
  text : Bytes
deriving DecidableEq, Repr

/-- An `io.Writer` towards a peer: the bytes accepted so far; `room` is the
number of bytes the peer still accepts before writes start failing with
`failure` (`none`: writes never fail). -/
structure Writer where
  out : Bytes
  room : Option Nat
  failure : GoError
deriving DecidableEq, Repr

/-- Go `w.Write(p)`: appends `p`, or the part of it that still fits together
with the writer's error. -/
def Writer.Write (w : Writer) (p : Bytes) : Writer × Option GoError :=
  match w.room with
  | none => ({ w with out := w.out ++ p }, none)
  | some k =>
    if p.length ≤ k then ({ w with out := w.out ++ p, room := some (k - p.length) }, none)
    else ({ w with out := w.out ++ p.take k, room := some 0 }, some w.failure)

/-- A writer that accepts everything, starting empty. -/
def Writer.unbounded : Writer := { out := [], room := none, failure := ⟨[]⟩ }

/-! ## `message/message.go` -/

namespace message

/-- Go `const MaxSize = 1024 * 1024`. -/
def MaxSize : Int := 1024 * 1024

/-- The errors `Read` returns. -/
inductive ReadError where
  | io (e : IOError)
  | invalidLengthPrefix (cause : strconv.NumError)
  | tooLarge (length : Int)
deriving DecidableEq, Repr

/-- What a call of `Read` does: return a payload, return an error, or stop the
goroutine with the run-time panic of `make([]byte, length)` for a negative length. -/
inductive ReadResult where
  | value (msg : Bytes)
  | error (e : ReadError)
  | panic
deriving DecidableEq, Repr

/-- Go `message.Read`.  Returns the result and the reader after the call. -/
def Read (r : Bytes) : ReadResult × Bytes :=
  match ReadString 58 r with
  | (_, some e, r1) => (.error (.io e), r1)
  | (lengthStr, none, r1) =>
    match strconv.Atoi (lengthStr.take (lengthStr.length - 1)) with
    | .error e => (.error (.invalidLengthPrefix e), r1)
    | .ok length =>
      if length > MaxSize then (.error (.tooLarge length), r1)
      else if length < 0 then (.panic, r1)
      else
        match ReadFull length.toNat r1 with
        | (_, some e, r2) => (.error (.io e), r2)
        | (buf, none, r2) => (.value buf, r2)

/-- Go `message.Write`: the header `strconv.Itoa(len(msg)) + ":"`, then the payload. -/
def Write (w : Writer) (msg : Bytes) : Writer × Option GoError :=
  let header := strconv.Itoa (msg.length : Int) ++ [58]
  match w.Write header with
  | (w1, some err) => (w1, some err)
  | (w1, none) => w1.Write msg

/-- The bytes of one frame: decimal length, `:`, payload. -/
def frame (msg : Bytes) : Bytes := strconv.Itoa (msg.length : Int) ++ [58] ++ msg

end message


/-! ## `llm/llm.go` -/

namespace llm

/-- Go `chatUsage`. -/
structure chatUsage where
  PromptTokens : Int
  CompletionTokens : Int
deriving DecidableEq, Repr

/-- The `Delta` field of one element of `chatChunk.Choices`. -/
structure chatDelta where
  Content : Bytes
deriving DecidableEq, Repr

/-- One element of `chatChunk.Choices`. -/
structure chatChoice where
  Delta : chatDelta
deriving DecidableEq, Repr

/-- Go `chatChunk`; `Usage` is a pointer, `none` when nil. -/
structure chatChunk where
  Choices : List chatChoice
  Usage : Option chatUsage
deriving DecidableEq, Repr

/-- Go `Stats`.  The counters are Go `int`s; they only grow by line and token
lengths, and are kept as unbounded integers. -/
structure Stats where
  BytesReceived : Int
  BytesSent : Int
  PromptTokens : Int
  CompletionTokens : Int
deriving DecidableEq, Repr

/-- The zero value of `Stats` (`var stats Stats`). -/
def Stats.zero : Stats := ⟨0, 0, 0, 0⟩

/-- An upstream HTTP response as the adapter sees it: the status code; the body
as `io.ReadAll` returns it (`raw`); and the body as `bufio.Scanner` presents it:
the texts `scanner.Text()` yields for the successive successful `scanner.Scan()`
calls (`lines`) and the value of `scanner.Err()` afterwards (`scanErr`). -/
structure Response where
  StatusCode : Nat
  raw : Bytes
  lines : List Bytes
  scanErr : Option GoError
deriving DecidableEq, Repr

/-- Go `const prefix = "data: "` of `StreamChatCompletion`. -/
def dataPrefix : Bytes := ascii "data: "

/-- The `for scanner.Scan()` loop of `StreamChatCompletion`, over the lines still
to come.  `unmarshal data` stands for `json.Unmarshal([]byte(data), &chunk)` on a
fresh `chatChunk`: `none` when it reports an error.  `onToken` acts on a state
`σ` and returns the new state with its error, if any.  The third component of
the result is the error a failing `onToken` made the loop return. -/
def scanLoop {σ : Type} (unmarshal : Bytes → Option chatChunk)
    (onToken : Bytes → σ → σ × Option GoError) :
    List Bytes → Stats → σ → Stats × σ × Option GoError
  | [], stats, s => (stats, s, none)
  | line :: rest, stats, s =>
    if line = [] ∨ line = ascii "data: [DONE]" then scanLoop unmarshal onToken rest stats s
    else if line.length ≤ dataPrefix.length then scanLoop unmarshal onToken rest stats s
    else
      let data := line.drop dataPrefix.length
      match unmarshal data with
      | none => scanLoop unmarshal onToken rest stats s
      | some chunk =>
        let stats1 : Stats :=
          match chunk.Usage with
          | some u => { stats with PromptTokens := u.PromptTokens,
                                   CompletionTokens := u.CompletionTokens }
          | none => stats
        match chunk.Choices with
        | [] => scanLoop unmarshal onToken rest stats1 s
        | c :: _ =>
          if c.Delta.Content ≠ [] then
            let token := c.Delta.Content
            let stats2 : Stats :=
              { stats1 with BytesReceived := stats1.BytesReceived + ((line.length : Int) + 1),
                            BytesSent := stats1.BytesSent + (token.length : Int) }
            match onToken token s with
            | (s1, some err) => (stats2, s1, some err)
            | (s1, none) => scanLoop unmarshal onToken rest stats2 s1
          else scanLoop unmarshal onToken rest stats1 s

/-- Go `StreamChatCompletion`.  `post userMessage` is the outcome of the
`http.Post` of the request built from `userMessage` (marshalling that request
cannot fail).  Returns the stats, the error and the final state of the callback. -/
def StreamChatCompletion {σ : Type} (unmarshal : Bytes → Option chatChunk)
    (post : Bytes → Except GoError Response) (userMessage : Bytes)
    (onToken : Bytes → σ → σ × Option GoError) (s : σ) : Stats × Option GoError × σ :=
  let stats := Stats.zero
  match post userMessage with
  | .error err => (stats, some ⟨ascii "request failed: " ++ err.text⟩, s)
  | .ok resp =>
    if resp.StatusCode ≠ 200 then
      (stats, some ⟨ascii "API error " ++ strconv.Itoa (resp.StatusCode : Int) ++ ascii ": "
        ++ resp.raw⟩, s)
    else
      match scanLoop unmarshal onToken resp.lines stats s with
      | (stats1, s1, some err) => (stats1, some err, s1)
      | (stats1, s1, none) => (stats1, resp.scanErr, s1)

/-- A callback together with a log of its invocations: each entry is the token
passed and the error returned. -/
def recording {σ : Type} (onToken : Bytes → σ → σ × Option GoError) :
    Bytes → σ × List (Bytes × Option GoError) → (σ × List (Bytes × Option GoError)) × Option GoError :=
  fun token st =>
    let r := onToken token st.1
    ((r.1, st.2 ++ [(token, r.2)]), r.2)

/-- The call `StreamChatCompletion` with the invocations of its callback logged:
the stats, the error, and the log of invocations in order. -/
def recorded {σ : Type} (unmarshal : Bytes → Option chatChunk)
    (post : Bytes → Except GoError Response) (userMessage : Bytes)
    (onToken : Bytes → σ → σ × Option GoError) (s : σ) :
    Stats × Option GoError × List (Bytes × Option GoError) :=
  let r := StreamChatCompletion unmarshal post userMessage (recording onToken) (s, [])
  (r.1, r.2.1, r.2.2.2)

/-- The token a line hands to `onToken`, as the loop computes it: the line is
neither empty nor `data: [DONE]`, is longer than six bytes, its bytes from the
seventh on decode, and the first choice has non-empty content. -/
def lineToken (unmarshal : Bytes → Option chatChunk) (line : Bytes) : Option Bytes :=
  if line = [] ∨ line = ascii "data: [DONE]" then none
  else if line.length ≤ dataPrefix.length then none
  else
    match unmarshal (line.drop dataPrefix.length) with
    | none => none
    | some chunk =>
      match chunk.Choices with
      | [] => none
      | c :: _ => if c.Delta.Content ≠ [] then some c.Delta.Content else none

/-- The content of a line as the specification reads it: the line is
`data: <json>`, `<json>` is not `[DONE]`, decodes, and `choices[0].delta.content`
is non-empty. -/
def specContent (unmarshal : Bytes → Option chatChunk) (line : Bytes) : Option Bytes :=
  if ascii "data: " <+: line then
    let json := line.drop 6
    if json = ascii "[DONE]" then none
    else
      match unmarshal json with
      | none => none
      | some chunk =>
        match chunk.Choices with
        | [] => none
        | c :: _ => if c.Delta.Content ≠ [] then some c.Delta.Content else none
  else none

/-- The stats after the usage update the loop makes for a line (`stats.PromptTokens`
and `stats.CompletionTokens` when the decoded chunk carries a usage). -/
def withUsage (unmarshal : Bytes → Option chatChunk) (line : Bytes) (stats : Stats) : Stats :=
  if line = [] ∨ line = ascii "data: [DONE]" then stats
  else if line.length ≤ dataPrefix.length then stats
  else
    match unmarshal (line.drop dataPrefix.length) with
    | none => stats
    | some chunk =>
      match chunk.Usage with
      | some u => { stats with PromptTokens := u.PromptTokens,
                               CompletionTokens := u.CompletionTokens }
      | none => stats

/-- The stats after the two additions the loop makes for a content-bearing line. -/
def withToken (stats : Stats) (line token : Bytes) : Stats :=
  { stats with BytesReceived := stats.BytesReceived + ((line.length : Int) + 1),
               BytesSent := stats.BytesSent + (token.length : Int) }

/-- Whether the loop hands a token to `onToken` for a line (the test the code
makes, `lineToken`). -/
def handsToken (unmarshal : Bytes → Option chatChunk) (line : Bytes) : Bool :=
  (lineToken unmarshal line).isSome

/-- A content-bearing line as the specification reads it: a line `data: <json>`
other than `data: [DONE]` whose `<json>` decodes with a non-empty
`choices[0].delta.content` (`specContent`). -/
def contentBearingLine (unmarshal : Bytes → Option chatChunk) (line : Bytes) : Bool :=
  (specContent unmarshal line).isSome

/-- Opening bytes of a compact chunk object, up to the opening quote of the content. -/
def compactHead : Bytes := ascii "\x7b\"choices\":[\x7b\"delta\":\x7b\"content\":\""

/-- Closing bytes of a compact chunk object, from the closing quote of the content. -/
def compactTail : Bytes := ascii "\"\x7d\x7d]\x7d"

/-- A byte that stands for itself inside a JSON string: printable ASCII other
than the quote and the backslash. -/
def plainByte (b : Nat) : Bool := decide (32 ≤ b) && decide (b < 127) && b != 34 && b != 92

/-- The decoder `json.Unmarshal` restricted to compact chunk objects, that is
texts `compactHead ++ content ++ compactTail` with `content` made of plain
bytes; on these `json.Unmarshal` produces the chunk below.  Every other text is
left undecoded, so this decoder is meant for bodies whose other lines are not
JSON objects at all. -/
def unmarshalCompact (data : Bytes) : Option chatChunk :=
  if compactHead <+: data ∧ compactTail <:+ data ∧
      compactHead.length + compactTail.length ≤ data.length then
    let content :=
      (data.drop compactHead.length).take (data.length - compactHead.length - compactTail.length)
    if content.all plainByte then
      some { Choices := [{ Delta := { Content := content } }], Usage := none }
    else none
  else none

/-- The text a handler sends for an adapter error: `\n[error: <msg>]`. -/
def errorPayload (err : GoError) : Bytes := ascii "\n[error: " ++ err.text ++ ascii "]"

/-- The error texts a handler sends for the outcome of an adapter call: one on
failure, none on success. -/
def errorPayloads (err : Option GoError) : List Bytes :=
  match err with
  | some e => [errorPayload e]
  | none => []

/-- A callback that does nothing and never fails. -/
def discard : Bytes → Unit → Unit × Option GoError := fun _ s => (s, none)

/-- A callback that counts its invocations and fails with `err` on invocation
number `k` (counted from 1). -/
def failOn (k : Nat) (err : GoError) : Bytes → Nat → Nat × Option GoError :=
  fun _ n => (n + 1, if n + 1 = k then some err else none)

/-- The compact chunk object carrying `content`. -/
def compactChunk (content : Bytes) : Bytes := compactHead ++ content ++ compactTail

/-- An upstream that answers every request with status 200 and the given lines. -/
def streaming (lines : List Bytes) : Bytes → Except GoError Response :=
  fun _ => .ok { StatusCode := 200, raw := [], lines := lines, scanErr := none }

end llm

/-! ## `httpserver/main.go` -/

namespace httpserver

/-- The parts of an `*http.Request` the handler reads. -/
structure Request where
  Method : Bytes
  Body : Bytes
deriving DecidableEq, Repr

/-- The state of an `http.ResponseWriter`: the status code given to
`WriteHeader` (`none`: not called, the status is 200), the header fields set,
the body writer, and whether the writer is an `http.Flusher`. -/
structure ResponseWriter where
  status : Option Nat
  header : List (Bytes × Bytes)
  body : Writer
  flusher : Bool
deriving DecidableEq, Repr

/-- Go `http.Error(w, msg, code)`: the status code and the message followed by
a newline (the header fields it sets are not recorded). -/
def httpError (w : ResponseWriter) (msg : Bytes) (code : Nat) : ResponseWriter :=
  { w with status := some code, body := (w.body.Write (msg ++ [10])).1 }

/-- Go `w.Header().Set(key, value)`. -/
def setHeader (w : ResponseWriter) (key value : Bytes) : ResponseWriter :=
  { w with header := (key, value) :: w.header.filter (fun kv => kv.1 != key) }

/-- The end-of-response event `data: [DONE]\n\n`. -/
def doneEvent : Bytes := ascii "data: [DONE]\n\n"

/-- The `onToken` callback of `handleChat`: `fmt.Fprintf(w, "data: %s\n\n", token)`. -/
def writeEvent (token : Bytes) (body : Writer) : Writer × Option GoError :=
  body.Write (ascii "data: " ++ token ++ ascii "\n\n")

/-- Go `handleChat`.  `decodeRequest body` stands for decoding the JSON request
body: the `message` field, or `none` when decoding fails.  Returns the response
writer after the call. -/
def handleChat (decodeRequest : Bytes → Option Bytes) (unmarshal : Bytes → Option llm.chatChunk)
    (post : Bytes → Except GoError llm.Response) (w : ResponseWriter) (r : Request) :
    ResponseWriter :=
  if r.Method ≠ ascii "POST" then httpError w (ascii "method not allowed") 405
  else
    match decodeRequest r.Body with
    | none => httpError w (ascii "invalid JSON body") 400
    | some message =>
      if message = [] then httpError w (ascii "message is required") 400
      else if w.flusher = false then httpError w (ascii "streaming not supported") 500
      else
        let w1 := setHeader w (ascii "Content-Type") (ascii "text/event-stream")
        let w2 := setHeader w1 (ascii "Cache-Control") (ascii "no-cache")
        let w3 := setHeader w2 (ascii "Connection") (ascii "keep-alive")
        let res := llm.StreamChatCompletion unmarshal post message writeEvent w3.body
        let body1 :=
          match res.2.1 with
          | some err => (res.2.2.Write (ascii "data: \n[error: " ++ err.text ++ ascii "]\n\n")).1
          | none => res.2.2
        let body2 := (body1.Write doneEvent).1
        { w3 with body := body2 }

/-- The request decoder restricted to bodies of the exact form
`{"message":"<text>"}` with `<text>` made of plain bytes, on which decoding the
JSON body yields `<text>` as message; every other body is left undecoded. -/
def decodeCompactRequest (body : Bytes) : Option Bytes :=
  let head := ascii "\x7b\"message\":\""
  let tail := ascii "\"\x7d"
  if head <+: body ∧ tail <:+ body ∧ head.length + tail.length ≤ body.length then
    let text := (body.drop head.length).take (body.length - head.length - tail.length)
    if text.all llm.plainByte then some text else none
  else none

/-- A fresh response writer of the HTTP server: nothing written, writes never
fail, flushing supported. -/
def freshResponse : ResponseWriter :=
  { status := none, header := [], body := Writer.unbounded, flusher := true }

/-- The SSE event carrying a payload: `data: <payload>\n\n`. -/
def event (payload : Bytes) : Bytes := ascii "data: " ++ payload ++ ascii "\n\n"

/-- The text `[DONE]`. -/
def doneText : Bytes := ascii "[DONE]"

/-- The claimed shape of a response body: it ends with the end-of-response
event, and that event starts at no earlier position of the body. -/
def singleDoneAtEnd (body : Bytes) : Prop :=
  doneEvent <:+ body ∧ ∀ i, i < body.length - doneEvent.length → ¬ doneEvent <+: body.drop i

instance (body : Bytes) : Decidable (singleDoneAtEnd body) := by
  unfold singleDoneAtEnd
  exact inferInstance

end httpserver

/-! ## `server/handlers.go` -/

namespace server

/-- How the goroutine serving one stream ends: it returns (and closes the
stream), or it stops with a run-time panic. -/
inductive StreamEnd where
  | returned
  | panicked
deriving DecidableEq, Repr

/-- The part of the stream loop of `handleSession` that answers one prompt
`msg` read from the stream: the adapter call with `message.Write` as callback,
the error frame on failure, then the empty frame.  Returns the stream and the
error of the last `Write`. -/
def respond (unmarshal : Bytes → Option llm.chatChunk)
    (post : Bytes → Except GoError llm.Response) (msg : Bytes) (stream : Writer) :
    Writer × Option GoError :=
  let res := llm.StreamChatCompletion unmarshal post msg
    (fun token w => message.Write w token) stream
  let stream1 :=
    match res.2.1 with
    | some err => (message.Write res.2.2 (ascii "\n[error: " ++ err.text ++ ascii "]")).1
    | none => res.2.2
  message.Write stream1 []

/-- The stream loop of `handleSession` (`for { msg, err := message.Read(reader) ... }`).
`upstream k` is the HTTP client at the time of the `k`-th prompt of the stream.
The first argument bounds the number of iterations; `none` when it is used up. -/
def streamLoop (unmarshal : Bytes → Option llm.chatChunk)
    (upstream : Nat → Bytes → Except GoError llm.Response) :
    Nat → Nat → Bytes → Writer → Option (Writer × StreamEnd)
  | 0, _, _, _ => none
  | fuel + 1, k, reader, stream =>
    match message.Read reader with
    | (.panic, _) => some (stream, .panicked)
    | (.error _, _) => some (stream, .returned)
    | (.value msg, reader1) =>
      match respond unmarshal (upstream k) msg stream with
      | (stream1, some _) => some (stream1, .returned)
      | (stream1, none) => streamLoop unmarshal upstream fuel (k + 1) reader1 stream1

/-- The goroutine `handleSession` starts for an accepted stream: `reader` holds
the bytes the client sends before closing its side. -/
def handleStream (unmarshal : Bytes → Option llm.chatChunk)
    (upstream : Nat → Bytes → Except GoError llm.Response) (reader : Bytes) (stream : Writer) :
    Option (Writer × StreamEnd) :=
  streamLoop unmarshal upstream (reader.length + 1) 0 reader stream

end server

/-! ## `benchmark/main.go` -/

namespace benchmark

/-- Go `Result`; durations are nanosecond counts. -/
structure Result where
  BytesReceived : Int
  TTFT : Int
  TokenCount : Int
  TotalInterTokenTime : Int
  TotalTime : Int
deriving DecidableEq, Repr

/-- The errors `webtransportRunner.Run` returns, by the step that failed. -/
inductive RunError where
  | dial (e : GoError)
  | openStream (e : GoError)
  | writePrompt (e : GoError)
  | closeWrite (e : GoError)
  | readToken (e : message.ReadError)
deriving DecidableEq, Repr

/-- What a call of `Run` does: return a result, return an error, or panic
(inside `message.Read`). -/
inductive RunResult where
  | ok (res : Result)
  | error (e : RunError)
  | panic
deriving DecidableEq, Repr

/-- What the WebTransport runner meets on the network for one prompt: the
errors of dialling (consulted only when no session is reused), of opening the
stream and of closing its write side; the send side of the stream; and the
bytes the server sends on the stream before closing it. -/
structure Peer where
  dialErr : Option GoError
  openErr : Option GoError
  stream : Writer
  closeErr : Option GoError
  response : Bytes
deriving DecidableEq, Repr

/-- The read loop of `webtransportRunner.Run` with the two assignments that
follow it.  `clock k` is the `k`-th clock reading of the run, `tick` the number
of the next reading, `count` the value of `cr.Count` once the stream has been
read to its end.  The first argument bounds the number of iterations; `none`
when it is used up. -/
def readTokens (clock : Nat → Int) (start : Int) (count : Int) :
    Nat → Bytes → Nat → Result → Int → Option RunResult
  | 0, _, _, _, _ => none
  | fuel + 1, reader, tick, res, lastToken =>
    match message.Read reader with
    | (.error (.io .EOF), _) =>
      some (.ok { res with BytesReceived := count, TotalTime := clock tick - start })
    | (.error e, _) => some (.error (.readToken e))
    | (.panic, _) => some .panic
    | (.value _, reader1) =>
      let now := clock tick
      let res1 : Result :=
        if res.TokenCount = 0 then { res with TTFT := now - start }
        else { res with TotalInterTokenTime := res.TotalInterTokenTime + (now - lastToken) }
      readTokens clock start count fuel reader1 (tick + 1)
        { res1 with TokenCount := res1.TokenCount + 1 } now

/-- Go `(*webtransportRunner).Run`.  `reuse` tells whether `r.sess` is set. -/
def Run (clock : Nat → Int) (reuse : Bool) (peer : Peer) (prompt : Bytes) : Option RunResult :=
  let start := clock 0
  match (if reuse then none else peer.dialErr) with
  | some e => some (.error (.dial e))
  | none =>
    match peer.openErr with
    | some e => some (.error (.openStream e))
    | none =>
      match (message.Write peer.stream prompt).2 with
      | some e => some (.error (.writePrompt e))
      | none =>
        match peer.closeErr with
        | some e => some (.error (.closeWrite e))
        | none =>
          readTokens clock start (peer.response.length : Int) (peer.response.length + 1)
            peer.response 1 ⟨0, 0, 0, 0, 0⟩ 0

/-- Go `chatChunk` of the benchmark (a local copy, without `Usage`). -/
structure chatChunk where
  Choices : List llm.chatChoice
deriving DecidableEq, Repr

/-- An HTTP response body as an HTTP runner reads it, through the counting
reader and a `bufio.Scanner`: the texts of the successive successful scans;
`scanErr` and `count` are the values of `scanner.Err()` and of `cr.Count` when
the runner has left its loop. -/
structure Body where
  lines : List Bytes
  scanErr : Option GoError
  count : Int
deriving DecidableEq, Repr

/-- The statements every runner executes for a token event that arrived at
`now`: the first one sets `TTFT`, a later one adds to `TotalInterTokenTime`;
then `TokenCount` is incremented (`lastToken = now` is left to the loop). -/
def recordToken (start now : Int) (res : Result) (lastToken : Int) : Result :=
  let res1 : Result :=
    if res.TokenCount = 0 then { res with TTFT := now - start }
    else { res with TotalInterTokenTime := res.TotalInterTokenTime + (now - lastToken) }
  { res1 with TokenCount := res1.TokenCount + 1 }

/-- The `for scanner.Scan()` loop of `rawAPIRunner.Run`.  `unmarshal data`
stands for `json.Unmarshal([]byte(data), &chunk)`, `none` when it reports an
error.  Returns the result so far and the number of the next clock reading. -/
def rawScan (unmarshal : Bytes → Option chatChunk) (clock : Nat → Int) (start : Int) :
    List Bytes → Nat → Result → Int → Result × Nat
  | [], tick, res, _ => (res, tick)
  | line :: rest, tick, res, lastToken =>
    if ¬ ascii "data: " <+: line then rawScan unmarshal clock start rest tick res lastToken
    else
      let data := line.drop (ascii "data: ").length
      if data = ascii "[DONE]" then (res, tick)
      else
        match unmarshal data with
        | none => rawScan unmarshal clock start rest tick res lastToken
        | some chunk =>
          match chunk.Choices with
          | [] => rawScan unmarshal clock start rest tick res lastToken
          | c :: _ =>
            if c.Delta.Content = [] then rawScan unmarshal clock start rest tick res lastToken
            else
              let now := clock tick
              rawScan unmarshal clock start rest (tick + 1)
                (recordToken start now res lastToken) now

/-- Go `(*rawAPIRunner).Run`.  `post prompt` is the outcome of `client.Post` for
the request built from `prompt` (marshalling it cannot fail).  Returns the pair
`(res, err)` of the Go function. -/
def rawAPIRunner.Run (unmarshal : Bytes → Option chatChunk) (clock : Nat → Int)
    (post : Bytes → Except GoError Body) (prompt : Bytes) : Result × Option GoError :=
  let start := clock 0
  match post prompt with
  | .error err => (⟨0, 0, 0, 0, 0⟩, some err)
  | .ok body =>
    let r := rawScan unmarshal clock start body.lines 1 ⟨0, 0, 0, 0, 0⟩ 0
    ({ r.1 with BytesReceived := body.count, TotalTime := clock r.2 - start }, body.scanErr)

/-- The `for scanner.Scan()` loop of `httpSSERunner.Run`.  Returns the result
so far and the number of the next clock reading. -/
def sseScan (clock : Nat → Int) (start : Int) :
    List Bytes → Nat → Result → Int → Result × Nat
  | [], tick, res, _ => (res, tick)
  | line :: rest, tick, res, lastToken =>
    if ¬ ascii "data: " <+: line then sseScan clock start rest tick res lastToken
    else
      let data := line.drop (ascii "data: ").length
      if data = ascii "[DONE]" then (res, tick)
      else
        let now := clock tick
        sseScan clock start rest (tick + 1) (recordToken start now res lastToken) now

/-- Go `(*httpSSERunner).Run`.  `post prompt` is the outcome of `client.Post`
for the request built from `prompt`.  Returns the pair `(res, err)` of the Go
function. -/
def httpSSERunner.Run (clock : Nat → Int) (post : Bytes → Except GoError Body)
    (prompt : Bytes) : Result × Option GoError :=
  let start := clock 0
  match post prompt with
  | .error err => (⟨0, 0, 0, 0, 0⟩, some err)
  | .ok body =>
    let r := sseScan clock start body.lines 1 ⟨0, 0, 0, 0, 0⟩ 0
    ({ r.1 with BytesReceived := body.count, TotalTime := clock r.2 - start }, body.scanErr)

/-- The timing facts claimed of a result with `n = TokenCount` tokens, the clock
having been read at the start (`clock 0`), at each token (`clock 1`, ...,
`clock n`) and at the end (`clock (n + 1)`): `TTFT` and `TotalInterTokenTime`
add up to the time from the start to the last token, `TotalTime` is the time
from the start to the end, and neither exceeds `TotalTime`. -/
def timingHolds (clock : Nat → Int) (res : Result) : Prop :=
  res.TTFT + res.TotalInterTokenTime = clock res.TokenCount.toNat - clock 0 ∧
  res.TotalTime = clock (res.TokenCount.toNat + 1) - clock 0 ∧
  res.TTFT ≤ res.TotalTime ∧
  res.TotalInterTokenTime ≤ res.TotalTime

/-- The state of a runner's loop between two iterations: `tick - 1` tokens have
been counted; before the first, both durations are zero; afterwards `TTFT` is
the first arrival since the start, `TotalInterTokenTime` the time from the first
arrival to the last, and `lastToken` the last arrival. -/
def timingInv (clock : Nat → Int) (tick : Nat) (res : Result) (lastToken : Int) : Prop :=
  0 ≤ res.TokenCount ∧
  (tick : Int) = res.TokenCount + 1 ∧
  (res.TokenCount = 0 → res.TTFT = 0 ∧ res.TotalInterTokenTime = 0) ∧
  (1 ≤ res.TokenCount →
    res.TTFT = clock 1 - clock 0 ∧
    res.TotalInterTokenTime = lastToken - clock 1 ∧
    lastToken = clock (tick - 1))

/-- The chunk decoder of the benchmark restricted to compact chunk objects
(see `llm.unmarshalCompact`). -/
def unmarshalCompact (data : Bytes) : Option chatChunk :=
  match llm.unmarshalCompact data with
  | some chunk => some { Choices := chunk.Choices }
  | none => none

/-- An HTTP client that answers every request with the given body, read
without error. -/
def answering (lines : List Bytes) (count : Int) : Bytes → Except GoError Body :=
  fun _ => .ok { lines := lines, scanErr := none, count := count }

/-- A clock whose `k`-th reading is `1000 + 25 * k`. -/
def steadyClock : Nat → Int := fun k => 1000 + 25 * (k : Int)

end benchmark

/-! ## Theorems -/

namespace strconv

theorem formatBits_digit (fuel u b : Nat) (hb : b ∈ formatBits fuel u) : 48 ≤ b ∧ b ≤ 57 := by
  induction fuel generalizing u with
  | zero => simp [formatBits] at hb
  | succ f ih =>
    unfold formatBits at hb
    split at hb
    · simp at hb; omega
    · rcases List.mem_append.mp hb with h | h
      · exact ih _ h
      · simp at h; omega

theorem formatBits_ne_nil (fuel u : Nat) : formatBits (fuel + 1) u ≠ [] := by
  unfold formatBits
  split <;> simp

theorem formatBits_length_le (fuel u k : Nat) (hk : 1 ≤ k) (hu : u < 10 ^ k) :
    (formatBits fuel u).length ≤ k := by
  induction fuel generalizing u k with
  | zero => simp [formatBits]
  | succ f ih =>
    unfold formatBits
    split
    · simpa using hk
    · rename_i h10
      have hk2 : 2 ≤ k := by
        by_contra hlt
        have : k = 1 := by omega
        subst this
        omega
      have hdiv : u / 10 < 10 ^ (k - 1) := by
        have hpow : 10 ^ k = 10 ^ (k - 1) * 10 := by
          rw [← pow_succ]; congr 1; omega
        rw [hpow] at hu
        exact Nat.div_lt_of_lt_mul (by omega)
      have := ih (u / 10) (k - 1) (by omega) hdiv
      simp only [List.length_append, List.length_singleton]
      omega

theorem atoiLoop_append (s t : Bytes) (n : Int) :
    atoiLoop (s ++ t) n =
      match atoiLoop s n with
      | .ok m => atoiLoop t m
      | .error e => .error e := by
  induction s generalizing n with
  | nil => simp [atoiLoop]
  | cons c s ih =>
    simp only [List.cons_append, atoiLoop]
    split
    · rfl
    · exact ih _

theorem atoiLoop_formatBits (fuel u : Nat) (h : u < fuel) :
    atoiLoop (formatBits fuel u) 0 = .ok (u : Int) := by
  induction fuel generalizing u with
  | zero => omega
  | succ f ih =>
    unfold formatBits
    split
    · rename_i h10
      have hd : (48 + u + 256 - 48) % 256 = u := by omega
      simp only [atoiLoop, hd]
      rw [if_neg (by omega)]
      simp
    · rename_i h10
      rw [atoiLoop_append, ih (u / 10) (by omega)]
      have hd : (48 + u % 10 + 256 - 48) % 256 = u % 10 := by omega
      simp only [atoiLoop, hd]
      rw [if_neg (by omega)]
      congr 1
      have := Nat.div_add_mod u 10
      push_cast
      omega

theorem Atoi_digits (s : Bytes) (hne : s ≠ []) (hlen : s.length < 19)
    (hd : ∀ b ∈ s, 48 ≤ b ∧ b ≤ 57) : Atoi s = atoiLoop s 0 := by
  cases s with
  | nil => exact absurd rfl hne
  | cons c t =>
    have hc := hd c (List.mem_cons_self _ _)
    have h1 : ¬ (c = 45 ∨ c = 43) := by omega
    have h2 : c ≠ 45 := by omega
    unfold Atoi
    rw [if_pos ⟨by simp, hlen⟩]
    simp only [if_neg h1, if_neg h2]
    rw [if_neg (fun hh => h1 hh.1)]
    cases atoiLoop (c :: t) 0 <;> rfl

theorem Atoi_Itoa (n : Nat) (hn : n < 10 ^ 18) : Atoi (Itoa (n : Int)) = .ok (n : Int) := by
  have hI : Itoa (n : Int) = formatBits (n + 1) n := by
    unfold Itoa
    rw [if_neg (by omega)]
    simp
  rw [hI, Atoi_digits _ (formatBits_ne_nil n n)
    (by have := formatBits_length_le (n + 1) n 18 (by omega) hn; omega)
    (fun b hb => formatBits_digit _ _ b hb)]
  exact atoiLoop_formatBits (n + 1) n (by omega)

theorem Itoa_nat_digit (n b : Nat) (hb : b ∈ Itoa (n : Int)) : 48 ≤ b ∧ b ≤ 57 := by
  unfold Itoa at hb
  rw [if_neg (by omega)] at hb
  exact formatBits_digit _ _ b hb

theorem atoiLoop_ok_digits (s : Bytes) (n m : Int) (hb : ∀ b ∈ s, b < 256)
    (h : atoiLoop s n = .ok m) : ∀ b ∈ s, 48 ≤ b ∧ b ≤ 57 := by
  induction s generalizing n with
  | nil => intro b hb; simp at hb
  | cons c t ih =>
    rw [atoiLoop] at h
    have hc := hb c (List.mem_cons_self _ _)
    by_cases hd : (c + 256 - 48) % 256 > 9
    · rw [if_pos hd] at h
      simp at h
    · rw [if_neg hd] at h
      intro b hbm
      rcases List.mem_cons.mp hbm with hbc | hbt
      · subst hbc
        omega
      · exact ih _ (fun x hx => hb x (List.mem_cons_of_mem _ hx)) h b hbt

theorem parseUintLoop_ok_digits (s : Bytes) (n m : Nat)
    (h : parseUintLoop s n = .ok m) : ∀ b ∈ s, 48 ≤ b ∧ b ≤ 57 := by
  induction s generalizing n with
  | nil => intro b hb; simp at hb
  | cons c t ih =>
    rw [parseUintLoop] at h
    by_cases hd : 48 ≤ c ∧ c ≤ 57
    · rw [if_pos hd] at h
      simp only at h
      split at h
      · simp at h
      · split at h
        · simp at h
        · intro b hbm
          rcases List.mem_cons.mp hbm with hbc | hbt
          · subst hbc
            exact hd
          · exact ih _ h b hbt
    · rw [if_neg hd] at h
      simp at h

/-- The texts `Atoi` accepts: an optional sign followed by one or more digits. -/
theorem Atoi_ok_shape (s : Bytes) (n : Int) (hb : ∀ b ∈ s, b < 256)
    (h : Atoi s = .ok n) :
    ∃ digits, digits ≠ [] ∧ (∀ b ∈ digits, 48 ≤ b ∧ b ≤ 57) ∧
      (s = digits ∨ s = 43 :: digits ∨ s = 45 :: digits) := by
  unfold Atoi at h
  cases s with
  | nil => simp [ParseInt] at h
  | cons c t =>
    by_cases hfast : 0 < (c :: t).length ∧ (c :: t).length < 19
    · rw [if_pos hfast] at h
      simp only at h
      by_cases hsign : c = 45 ∨ c = 43
      · simp only [if_pos hsign] at h
        by_cases ht : t.length < 1
        · rw [if_pos ⟨hsign, ht⟩] at h
          simp at h
        · rw [if_neg (fun hh => ht hh.2)] at h
          cases hl : atoiLoop t 0 with
          | error e => rw [hl] at h; simp at h
          | ok m =>
            refine ⟨t, ?_, atoiLoop_ok_digits t 0 m
              (fun x hx => hb x (List.mem_cons_of_mem _ hx)) hl, ?_⟩
            · intro hnil
              subst hnil
              simp at ht
            · rcases hsign with hs | hs <;> subst hs <;> simp
      · simp only [if_neg hsign] at h
        rw [if_neg (fun hh => hsign hh.1)] at h
        cases hl : atoiLoop (c :: t) 0 with
        | error e => rw [hl] at h; simp at h
        | ok m =>
          exact ⟨c :: t, by simp, atoiLoop_ok_digits (c :: t) 0 m hb hl, Or.inl rfl⟩
    · rw [if_neg hfast] at h
      unfold ParseInt at h
      simp only at h
      by_cases hsign : c = 43 ∨ c = 45
      · simp only [if_pos hsign] at h
        cases hp : ParseUint t with
        | error e => rw [hp] at h; simp at h
        | ok un =>
          unfold ParseUint at hp
          by_cases ht : t = []
          · rw [if_pos ht] at hp
            simp at hp
          · rw [if_neg ht] at hp
            refine ⟨t, ht, parseUintLoop_ok_digits t 0 un hp, ?_⟩
            rcases hsign with hs | hs <;> subst hs <;> simp
      · simp only [if_neg hsign] at h
        cases hp : ParseUint (c :: t) with
        | error e => rw [hp] at h; simp at h
        | ok un =>
          unfold ParseUint at hp
          rw [if_neg (by simp)] at hp
          exact ⟨c :: t, by simp, parseUintLoop_ok_digits (c :: t) 0 un hp, Or.inl rfl⟩

end strconv

theorem ReadString_delim (delim : Nat) (pre rest : Bytes) (h : delim ∉ pre) :
    ReadString delim (pre ++ delim :: rest) = (pre ++ [delim], none, rest) := by
  induction pre with
  | nil => simp [ReadString]
  | cons b p ih =>
    have hb : b ≠ delim := fun hbd => h (by simp [hbd])
    have hp : delim ∉ p := fun hm => h (List.mem_cons_of_mem _ hm)
    show ReadString delim (b :: (p ++ delim :: rest)) = _
    rw [ReadString, if_neg hb, ih hp]
    rfl

theorem ReadString_eof (delim : Nat) (s : Bytes) (h : delim ∉ s) :
    ReadString delim s = (s, some .EOF, []) := by
  induction s with
  | nil => rfl
  | cons b p ih =>
    have hb : b ≠ delim := fun hbd => h (by simp [hbd])
    have hp : delim ∉ p := fun hm => h (List.mem_cons_of_mem _ hm)
    simp only [ReadString, if_neg hb, ih hp]

theorem ReadString_none (delim : Nat) (r s r1 : Bytes)
    (h : ReadString delim r = (s, none, r1)) : r = s ++ r1 ∧ 0 < s.length := by
  induction r generalizing s r1 with
  | nil => simp [ReadString] at h
  | cons b t ih =>
    rw [ReadString] at h
    by_cases hb : b = delim
    · rw [if_pos hb] at h
      simp only [Prod.mk.injEq] at h
      obtain ⟨h1, -, h3⟩ := h
      subst h1 h3
      simp
    · rw [if_neg hb] at h
      simp only [Prod.mk.injEq] at h
      obtain ⟨h1, h2, h3⟩ := h
      obtain ⟨e1, -⟩ := ih (ReadString delim t).1 (ReadString delim t).2.2
        (by rw [← h2])
      subst h1 h3
      refine ⟨?_, by simp⟩
      rw [List.cons_append, ← e1]

theorem ReadFull_length_le (n : Nat) (r : Bytes) : (ReadFull n r).2.2.length ≤ r.length := by
  unfold ReadFull
  split
  · simp
  · split <;> simp

namespace message

theorem Write_unlimited (w : Writer) (msg : Bytes) (h : w.room = none) :
    Write w msg = ({ w with out := w.out ++ frame msg }, none) := by
  cases w with
  | mk out room failure =>
    simp only at h
    subst h
    simp [Write, Writer.Write, frame]

theorem Read_after_colon (pre rest : Bytes) (h : 58 ∉ pre) :
    Read (pre ++ 58 :: rest) =
      match strconv.Atoi pre with
      | .error e => (.error (.invalidLengthPrefix e), rest)
      | .ok length =>
        if length > MaxSize then (.error (.tooLarge length), rest)
        else if length < 0 then (.panic, rest)
        else
          match ReadFull length.toNat rest with
          | (_, some e, r2) => (.error (.io e), r2)
          | (buf, none, r2) => (.value buf, r2) := by
  unfold Read
  rw [ReadString_delim 58 pre rest h]
  simp

theorem Read_frame (msg rest : Bytes) (h : (msg.length : Int) ≤ MaxSize) :
    Read (frame msg ++ rest) = (.value msg, rest) := by
  have hlen : msg.length ≤ 1048576 := by
    unfold MaxSize at h; omega
  have h58 : 58 ∉ strconv.Itoa (msg.length : Int) := fun hm => by
    have := strconv.Itoa_nat_digit _ _ hm
    omega
  have hfr : frame msg ++ rest = strconv.Itoa (msg.length : Int) ++ 58 :: (msg ++ rest) := by
    simp [frame]
  rw [hfr, Read_after_colon _ _ h58, strconv.Atoi_Itoa _ (by omega)]
  simp only
  rw [if_neg (by omega), if_neg (by omega)]
  simp [ReadFull]

end message

namespace message

theorem Writer_Write_out_of_ok (w : Writer) (p : Bytes) (h : (w.Write p).2 = none) :
    (w.Write p).1.out = w.out ++ p := by
  unfold Writer.Write at h ⊢
  cases hr : w.room with
  | none => simp
  | some k =>
    simp only [hr] at h ⊢
    by_cases hk : p.length ≤ k
    · simp [hk]
    · simp [hk] at h

theorem Write_out_of_ok (w : Writer) (msg : Bytes) (h : (Write w msg).2 = none) :
    (Write w msg).1.out = w.out ++ frame msg := by
  unfold Write at h ⊢
  simp only at h ⊢
  generalize hh : strconv.Itoa (msg.length : Int) ++ [58] = header at h ⊢
  cases hw : w.Write header with
  | mk w1 e1 =>
    have h1 := Writer_Write_out_of_ok w header
    rw [hw] at h h1
    cases e1 with
    | some err => simp at h
    | none =>
      simp only at h h1 ⊢
      rw [Writer_Write_out_of_ok w1 msg h, h1 trivial, frame, hh, List.append_assoc]

/-- A successful `Read` consumes at least one byte. -/
theorem Read_value_shorter (r m r1 : Bytes) (h : Read r = (.value m, r1)) :
    r1.length < r.length := by
  unfold Read at h
  rcases hrs : ReadString 58 r with ⟨s, e, r0⟩
  rw [hrs] at h
  cases e with
  | some e => simp at h
  | none =>
    obtain ⟨hr, hs⟩ := ReadString_none 58 r s r0 hrs
    have hlen : r0.length < r.length := by
      rw [hr, List.length_append]
      omega
    simp only at h
    split at h
    · simp at h
    · split at h
      · simp at h
      · split at h
        · simp at h
        · rename_i n _ _ _
          have hfull := ReadFull_length_le n.toNat r0
          split at h
          · simp at h
          · rename_i buf r2 heq
            rw [heq] at hfull
            simp only [Prod.mk.injEq] at h
            obtain ⟨-, h2⟩ := h
            subst h2
            simp only at hfull
            omega

/-- C1.  Round trip of the framing codec: for every payload `P` of at most
1048576 bytes, when `message.Write` emits `P` into an empty writer without
error, `message.Read` on a reader over exactly the bytes written returns `P`,
with no error, and leaves the reader empty. -/
theorem Read_Write_roundtrip (w : Writer) (P : Bytes) (hw : w.out = [])
    (hok : (Write w P).2 = none) (hP : P.length ≤ 1048576) :
    Read (Write w P).1.out = (.value P, []) := by
  rw [Write_out_of_ok w P hok, hw, List.nil_append]
  have := Read_frame P [] (by unfold MaxSize; omega)
  simpa using this

theorem Read_Write_roundtrip_witness :
    Writer.unbounded.out = [] ∧
    (Write Writer.unbounded (ascii "hello, world!")).2 = none ∧
    (ascii "hello, world!").length ≤ 1048576 ∧
    Read (Write Writer.unbounded (ascii "hello, world!")).1.out
      = (.value (ascii "hello, world!"), []) :=
  ⟨rfl, by decide, by decide,
    Read_Write_roundtrip Writer.unbounded (ascii "hello, world!") rfl (by decide) (by decide)⟩

/-- The part of C2 that holds: when the bytes before the first `:` are not an
optional sign followed by one or more digits, `Read` fails with the
invalid-length-prefix error and the reader is left after the `:`. -/
theorem Read_bad_length (pre rest : Bytes) (hcolon : 58 ∉ pre) (hb : ∀ b ∈ pre, b < 256)
    (hshape : ¬ ∃ digits, digits ≠ [] ∧ (∀ b ∈ digits, 48 ≤ b ∧ b ≤ 57) ∧
      (pre = digits ∨ pre = 43 :: digits ∨ pre = 45 :: digits)) :
    ∃ e, Read (pre ++ 58 :: rest) = (.error (.invalidLengthPrefix e), rest) := by
  rw [Read_after_colon pre rest hcolon]
  cases h : strconv.Atoi pre with
  | error e => exact ⟨e, rfl⟩
  | ok n => exact absurd (strconv.Atoi_ok_shape pre n hb h) hshape

/-- C2.  `message.Read` evaluated on length prefixes that are not made of
digits only: `abc:` and `:` are refused as invalid length prefixes, but the
signed prefix of `+5:hello` is accepted and the payload `hello` returned, and
on `-1:` the call does not return an error at all: it panics when allocating
a buffer of length -1. -/
theorem Read_signed_prefix :
    Read (ascii "abc:") = (.error (.invalidLengthPrefix .ErrSyntax), []) ∧
    Read (ascii ":") = (.error (.invalidLengthPrefix .ErrSyntax), []) ∧
    Read (ascii "+5:hello") = (.value (ascii "hello"), []) ∧
    Read (ascii "-1:") = (.panic, []) := by
  decide

/-- C3.  For every input whose length prefix (the bytes before the first `:`)
parses to `n`: when `n > 1048576`, `message.Read` fails with the too-large error
and the reader is left exactly at the byte after the `:`; when `n ≤ 1048576`
(so for `n = 1048576`) the result is not the too-large error. -/
theorem Read_too_large (pre rest : Bytes) (n : Int) (hcolon : 58 ∉ pre)
    (hparse : strconv.Atoi pre = .ok n) :
    (n > 1048576 → Read (pre ++ 58 :: rest) = (.error (.tooLarge n), rest)) ∧
    (n ≤ 1048576 → ∀ m, (Read (pre ++ 58 :: rest)).1 ≠ .error (.tooLarge m)) := by
  rw [Read_after_colon pre rest hcolon, hparse]
  constructor
  · intro hbig
    simp only
    rw [if_pos (by unfold MaxSize; omega)]
  · intro hsmall m
    simp only
    rw [if_neg (by unfold MaxSize; omega)]
    split
    · simp
    · split <;> simp

theorem Read_too_large_witness :
    (58 ∉ ascii "1048577" ∧ strconv.Atoi (ascii "1048577") = .ok 1048577 ∧
      Read (ascii "1048577" ++ 58 :: ascii "abc") = (.error (.tooLarge 1048577), ascii "abc")) ∧
    (58 ∉ ascii "1048576" ∧ strconv.Atoi (ascii "1048576") = .ok 1048576 ∧
      ∀ m, (Read (ascii "1048576" ++ 58 :: ascii "abc")).1 ≠ .error (.tooLarge m)) :=
  ⟨⟨by decide, by decide,
      (Read_too_large (ascii "1048577") (ascii "abc") 1048577 (by decide) (by decide)).1
        (by decide)⟩,
    ⟨by decide, by decide,
      (Read_too_large (ascii "1048576") (ascii "abc") 1048576 (by decide) (by decide)).2
        (by decide)⟩⟩

end message

namespace llm

theorem scanLoop_cons {σ : Type} (u : Bytes → Option chatChunk)
    (f : Bytes → σ → σ × Option GoError) (line : Bytes) (rest : List Bytes)
    (stats : Stats) (s : σ) :
    scanLoop u f (line :: rest) stats s =
      match lineToken u line with
      | none => scanLoop u f rest (withUsage u line stats) s
      | some token =>
        match f token s with
        | (s1, some err) => (withToken (withUsage u line stats) line token, s1, some err)
        | (s1, none) => scanLoop u f rest (withToken (withUsage u line stats) line token) s1 := by
  rw [scanLoop]
  unfold lineToken withUsage
  by_cases h1 : line = [] ∨ line = ascii "data: [DONE]"
  · simp only [if_pos h1]
  · simp only [if_neg h1]
    by_cases h2 : line.length ≤ dataPrefix.length
    · simp only [if_pos h2]
    · simp only [if_neg h2]
      cases hu : u (line.drop dataPrefix.length) with
      | none => simp only
      | some chunk =>
        simp only
        cases hc : chunk.Choices with
        | nil => simp only
        | cons c cs =>
          simp only
          by_cases h3 : c.Delta.Content ≠ []
          · simp only [if_pos h3]
            rfl
          · simp only [if_neg h3]

theorem withUsage_bytes (u : Bytes → Option chatChunk) (line : Bytes) (stats : Stats) :
    (withUsage u line stats).BytesReceived = stats.BytesReceived ∧
    (withUsage u line stats).BytesSent = stats.BytesSent := by
  unfold withUsage
  split
  · exact ⟨rfl, rfl⟩
  · split
    · exact ⟨rfl, rfl⟩
    · split
      · exact ⟨rfl, rfl⟩
      · split <;> exact ⟨rfl, rfl⟩

theorem scanLoop_recording {σ : Type} (u : Bytes → Option chatChunk)
    (cb : Bytes → σ → σ × Option GoError) (lines : List Bytes) :
    ∀ (stats : Stats) (s : σ) (log : List (Bytes × Option GoError))
      (r : Stats × (σ × List (Bytes × Option GoError)) × Option GoError),
      scanLoop u (recording cb) lines stats (s, log) = r →
      ∃ new : List (Bytes × Option GoError),
        r.2.1.2 = log ++ new ∧
        new.map Prod.fst = (lines.filterMap (lineToken u)).take new.length ∧
        r.1.BytesSent = stats.BytesSent + (new.map (fun e => (e.1.length : Int))).sum ∧
        r.1.BytesReceived = stats.BytesReceived +
          (((lines.filter (handsToken u)).take new.length).map
            (fun l => (l.length : Int) + 1)).sum ∧
        (r.2.2 = none →
          new.length = (lines.filterMap (lineToken u)).length ∧ ∀ x ∈ new, x.2 = none) ∧
        (∀ e, r.2.2 = some e →
          ∃ init tok, new = init ++ [(tok, some e)] ∧ ∀ x ∈ init, x.2 = none) := by
  induction lines with
  | nil =>
    intro stats s log r hr
    rw [scanLoop] at hr
    subst hr
    exact ⟨[], by simp⟩
  | cons line rest ih =>
    intro stats s log r hr
    rw [scanLoop_cons] at hr
    cases hlt : lineToken u line with
    | none =>
      rw [hlt] at hr
      simp only at hr
      obtain ⟨new, h1, h2, h3, h4, h5, h6⟩ := ih _ _ _ _ hr
      have hb : handsToken u line = false := by simp [handsToken, hlt]
      have hw := withUsage_bytes u line stats
      refine ⟨new, h1, ?_, ?_, ?_, ?_, h6⟩
      · rw [List.filterMap_cons_none hlt]; exact h2
      · rw [h3, hw.2]
      · rw [h4, hw.1, List.filter_cons_of_neg (by simp [hb])]
      · rw [List.filterMap_cons_none hlt]; exact h5
    | some tok =>
      rw [hlt] at hr
      simp only at hr
      have hb : handsToken u line = true := by simp [handsToken, hlt]
      have hw := withUsage_bytes u line stats
      have hrec : recording cb tok (s, log)
          = (((cb tok s).1, log ++ [(tok, (cb tok s).2)]), (cb tok s).2) := rfl
      rw [hrec] at hr
      cases hcb : (cb tok s).2 with
      | some err =>
        rw [hcb] at hr
        simp only at hr
        subst hr
        refine ⟨[(tok, some err)], rfl, ?_, ?_, ?_, ?_, ?_⟩
        · rw [List.filterMap_cons_some hlt]; simp
        · simp [withToken, hw.2]
        · rw [List.filter_cons_of_pos (by simp [hb])]; simp [withToken, hw.1]
        · intro h; simp at h
        · intro e he
          simp only [Option.some.injEq] at he
          subst he
          exact ⟨[], tok, rfl, by simp⟩
      | none =>
        rw [hcb] at hr
        simp only at hr
        obtain ⟨new, h1, h2, h3, h4, h5, h6⟩ := ih _ _ _ _ hr
        refine ⟨(tok, none) :: new, ?_, ?_, ?_, ?_, ?_, ?_⟩
        · rw [h1]; simp
        · rw [List.filterMap_cons_some hlt]; simp [h2]
        · rw [h3]; simp [withToken, hw.2]; ring
        · rw [h4, List.filter_cons_of_pos (by simp [hb])]; simp [withToken, hw.1]; ring
        · intro hn
          obtain ⟨h5a, h5b⟩ := h5 hn
          rw [List.filterMap_cons_some hlt]
          refine ⟨by simp [h5a], ?_⟩
          intro x hx
          rcases List.mem_cons.mp hx with hx | hx
          · rw [hx]
          · exact h5b x hx
        · intro e he
          obtain ⟨init, tk, hnew, hinit⟩ := h6 e he
          refine ⟨(tok, none) :: init, tk, by rw [hnew]; rfl, ?_⟩
          intro x hx
          rcases List.mem_cons.mp hx with hx | hx
          · rw [hx]
          · exact hinit x hx

theorem recorded_ok {σ : Type} (u : Bytes → Option chatChunk)
    (post : Bytes → Except GoError Response) (msg : Bytes)
    (cb : Bytes → σ → σ × Option GoError) (s0 : σ) (resp : Response)
    (hpost : post msg = .ok resp) (h200 : resp.StatusCode = 200) :
    recorded u post msg cb s0 =
      ((scanLoop u (recording cb) resp.lines Stats.zero (s0, [])).1,
       (match (scanLoop u (recording cb) resp.lines Stats.zero (s0, [])).2.2 with
        | some err => some err
        | none => resp.scanErr),
       (scanLoop u (recording cb) resp.lines Stats.zero (s0, [])).2.1.2) := by
  unfold recorded StreamChatCompletion
  simp only [hpost, h200, ne_eq, not_true_eq_false, if_false]
  rcases hsl : scanLoop u (recording cb) resp.lines Stats.zero (s0, []) with ⟨st, s1, e⟩
  cases e <;> rfl

theorem recorded_not_ok {σ : Type} (u : Bytes → Option chatChunk)
    (post : Bytes → Except GoError Response) (msg : Bytes)
    (cb : Bytes → σ → σ × Option GoError) (s0 : σ)
    (h : ∀ resp, post msg = .ok resp → resp.StatusCode ≠ 200) :
    (recorded u post msg cb s0).2.2 = [] := by
  unfold recorded StreamChatCompletion
  cases hp : post msg with
  | error err => rfl
  | ok resp =>
    simp only
    rw [if_pos (h resp hp)]

theorem scanLoop_recording_sim {σ : Type} (u : Bytes → Option chatChunk)
    (cb : Bytes → σ → σ × Option GoError) (lines : List Bytes) :
    ∀ (stats : Stats) (s : σ) (log : List (Bytes × Option GoError)),
      (scanLoop u (recording cb) lines stats (s, log)).1 = (scanLoop u cb lines stats s).1 ∧
      (scanLoop u (recording cb) lines stats (s, log)).2.1.1 = (scanLoop u cb lines stats s).2.1 ∧
      (scanLoop u (recording cb) lines stats (s, log)).2.2 = (scanLoop u cb lines stats s).2.2 := by
  induction lines with
  | nil => intro stats s log; simp [scanLoop]
  | cons line rest ih =>
    intro stats s log
    rw [scanLoop_cons, scanLoop_cons]
    cases hlt : lineToken u line with
    | none => exact ih _ _ _
    | some tok =>
      simp only
      have hrec : recording cb tok (s, log)
          = (((cb tok s).1, log ++ [(tok, (cb tok s).2)]), (cb tok s).2) := rfl
      rw [hrec]
      rcases hcb : cb tok s with ⟨s1, e⟩
      cases e with
      | some err => exact ⟨rfl, rfl, rfl⟩
      | none => exact ih _ _ _

theorem recorded_eq {σ : Type} (u : Bytes → Option chatChunk)
    (post : Bytes → Except GoError Response) (msg : Bytes)
    (cb : Bytes → σ → σ × Option GoError) (s0 : σ) :
    (recorded u post msg cb s0).1 = (StreamChatCompletion u post msg cb s0).1 ∧
    (recorded u post msg cb s0).2.1 = (StreamChatCompletion u post msg cb s0).2.1 := by
  unfold recorded StreamChatCompletion
  cases hp : post msg with
  | error err => exact ⟨rfl, rfl⟩
  | ok resp =>
    simp only
    by_cases h200 : resp.StatusCode ≠ 200
    · rw [if_pos h200, if_pos h200]
      exact ⟨rfl, rfl⟩
    · rw [if_neg h200, if_neg h200]
      obtain ⟨h1, -, h3⟩ := scanLoop_recording_sim u cb resp.lines Stats.zero s0 []
      rcases hA : scanLoop u (recording cb) resp.lines Stats.zero (s0, []) with ⟨st, s1, e⟩
      rcases hB : scanLoop u cb resp.lines Stats.zero s0 with ⟨st2, s2, e2⟩
      rw [hA, hB] at h1 h3
      simp only at h1 h3
      subst h1 h3
      cases e <;> exact ⟨rfl, rfl⟩

theorem lineToken_ne_nil (u : Bytes → Option chatChunk) (line tok : Bytes)
    (h : lineToken u line = some tok) : tok ≠ [] := by
  unfold lineToken at h
  split at h
  · simp at h
  · split at h
    · simp at h
    · split at h
      · simp at h
      · split at h
        · simp at h
        · split at h
          · rename_i hne
            simp only [Option.some.injEq] at h
            rw [← h]
            exact hne
          · simp at h

/-- A run of the loop whose callback appends `enc token` to a writer without
limit: the writer receives the encodings of the tokens of all lines, in order. -/
theorem scanLoop_writer (u : Bytes → Option chatChunk) (enc : Bytes → Bytes)
    (f : Bytes → Writer → Writer × Option GoError)
    (hf : ∀ tok w, w.room = none → f tok w = ({ w with out := w.out ++ enc tok }, none))
    (lines : List Bytes) :
    ∀ (stats : Stats) (w : Writer), w.room = none →
      (scanLoop u f lines stats w).2.1
        = { w with out := w.out ++ ((lines.filterMap (lineToken u)).map enc).flatten } ∧
      (scanLoop u f lines stats w).2.2 = none := by
  induction lines with
  | nil => intro stats w _; simp [scanLoop]
  | cons line rest ih =>
    intro stats w hw
    rw [scanLoop_cons]
    cases hlt : lineToken u line with
    | none =>
      rw [List.filterMap_cons_none hlt]
      exact ih _ _ hw
    | some tok =>
      simp only
      rw [hf tok w hw, List.filterMap_cons_some hlt]
      simp only
      obtain ⟨h1, h2⟩ := ih (withToken (withUsage u line stats) line tok)
        { w with out := w.out ++ enc tok } hw
      refine ⟨?_, h2⟩
      rw [h1]
      simp

/-- The adapter run with a callback that appends `enc token` to a writer
without limit: the writer receives the encodings of the tokens handed to the
callback, the callback never fails, and every token is non-empty. -/
theorem StreamChatCompletion_writer (u : Bytes → Option chatChunk) (enc : Bytes → Bytes)
    (f : Bytes → Writer → Writer × Option GoError)
    (hf : ∀ tok w, w.room = none → f tok w = ({ w with out := w.out ++ enc tok }, none))
    (post : Bytes → Except GoError Response) (msg : Bytes) (w : Writer) (hw : w.room = none) :
    (StreamChatCompletion u post msg f w).2.2
      = { w with out := w.out ++ (((recorded u post msg f w).2.2.map Prod.fst).map enc).flatten } ∧
    (∀ t ∈ (recorded u post msg f w).2.2.map Prod.fst, t ≠ []) ∧
    (∀ x ∈ (recorded u post msg f w).2.2, x.2 = none) := by
  by_cases hok : ∃ resp, post msg = .ok resp ∧ resp.StatusCode = 200
  · obtain ⟨resp, hpost, h200⟩ := hok
    rw [recorded_ok u post msg f w resp hpost h200]
    simp only
    obtain ⟨new, h1, h2, -, -, h5, -⟩ :=
      scanLoop_recording u f resp.lines Stats.zero w [] _ rfl
    obtain ⟨hs1, hs2, hs3⟩ := scanLoop_recording_sim u f resp.lines Stats.zero w []
    obtain ⟨hw1, hw2⟩ := scanLoop_writer u enc f hf resp.lines Stats.zero w hw
    simp only [List.nil_append] at h1
    rw [hw2] at hs3
    obtain ⟨h5a, h5b⟩ := h5 hs3
    rw [h1, h2, h5a, List.take_length]
    refine ⟨?_, ?_, h5b⟩
    · unfold StreamChatCompletion
      simp only [hpost, h200, ne_eq, not_true_eq_false, if_false]
      rcases hB : scanLoop u f resp.lines Stats.zero w with ⟨st2, s2, e2⟩
      rw [hB] at hw1 hw2
      simp only at hw1 hw2
      subst hw2
      simp only
      exact hw1
    · intro t ht
      obtain ⟨line, -, hl⟩ := List.mem_filterMap.mp ht
      exact lineToken_ne_nil u line t hl
  · have hnil := recorded_not_ok u post msg f w (fun resp hp h2 => hok ⟨resp, hp, h2⟩)
    rw [hnil]
    refine ⟨?_, by simp, by simp⟩
    unfold StreamChatCompletion
    cases hp : post msg with
    | error err => simp
    | ok resp =>
      simp only
      rw [if_pos (fun h2 => hok ⟨resp, hp, h2⟩)]
      simp

theorem scanLoop_never_fails {σ : Type} (u : Bytes → Option chatChunk)
    (f : Bytes → σ → σ × Option GoError) (hf : ∀ t s, (f t s).2 = none) (lines : List Bytes) :
    ∀ (stats : Stats) (s : σ), (scanLoop u f lines stats s).2.2 = none := by
  induction lines with
  | nil => intro stats s; simp [scanLoop]
  | cons line rest ih =>
    intro stats s
    rw [scanLoop_cons]
    cases hlt : lineToken u line with
    | none => exact ih _ _
    | some tok =>
      simp only
      have := hf tok s
      rcases hcb : f tok s with ⟨s1, e⟩
      rw [hcb] at this
      simp only at this
      subst this
      exact ih _ _

/-- With a callback that never fails, the tokens handed to it are those of all
lines of a 200 body, in order. -/
theorem StreamChatCompletion_tokens {σ : Type} (u : Bytes → Option chatChunk)
    (post : Bytes → Except GoError Response) (msg : Bytes)
    (cb : Bytes → σ → σ × Option GoError) (s0 : σ) (resp : Response)
    (hpost : post msg = .ok resp) (h200 : resp.StatusCode = 200)
    (hcb : ∀ t s, (cb t s).2 = none) :
    (recorded u post msg cb s0).2.2.map Prod.fst = resp.lines.filterMap (lineToken u) := by
  rw [recorded_ok u post msg cb s0 resp hpost h200]
  obtain ⟨new, h1, h2, -, -, h5, -⟩ :=
    scanLoop_recording u cb resp.lines Stats.zero s0 [] _ rfl
  have hnone := scanLoop_never_fails u (recording cb) (fun t st => hcb t st.1) resp.lines
    Stats.zero (s0, [])
  simp only [List.nil_append] at h1
  simp only
  rw [h1, h2, (h5 hnone).1, List.take_length]

/-- On a line that is at most six bytes long or starts with `data: `, the loop
computes the content the specification reads (the empty text not being JSON). -/
theorem lineToken_eq_specContent (u : Bytes → Option chatChunk) (line : Bytes)
    (hu : u [] = none) (hl : 6 < line.length → ascii "data: " <+: line) :
    lineToken u line = specContent u line := by
  unfold lineToken specContent
  have hplen : dataPrefix.length = 6 := rfl
  by_cases h1 : line = [] ∨ line = ascii "data: [DONE]"
  · rw [if_pos h1]
    rcases h1 with h | h
    · subst h
      rw [if_neg (by decide)]
    · subst h
      rw [if_pos (by decide)]
      simp only
      rw [if_pos (by decide)]
  · rw [if_neg h1]
    by_cases h2 : line.length ≤ dataPrefix.length
    · rw [if_pos h2]
      by_cases hp : ascii "data: " <+: line
      · rw [if_pos hp]
        obtain ⟨t, ht⟩ := hp
        have hlen : (ascii "data: " ++ t).length = line.length := by rw [ht]
        have ht0 : t = [] := by
          apply List.eq_nil_of_length_eq_zero
          simp only [List.length_append] at hlen
          have : (ascii "data: ").length = 6 := rfl
          omega
        subst ht0
        rw [← ht]
        simp only [List.append_nil]
        rw [if_neg (by decide)]
        have hd : List.drop 6 (ascii "data: ") = [] := by decide
        rw [hd, hu]
      · rw [if_neg hp]
    · rw [if_neg h2]
      have hp := hl (by omega)
      rw [if_pos hp, hplen]
      simp only
      have hnd : List.drop 6 line ≠ ascii "[DONE]" := by
        intro hd
        obtain ⟨t, ht⟩ := hp
        apply h1
        right
        rw [← ht] at hd ⊢
        have : List.drop 6 (ascii "data: " ++ t) = t := by
          rw [List.drop_append_of_le_length (by decide)]
          rfl
        rw [this] at hd
        rw [hd]
        decide
      rw [if_neg hnd]

/-- The claim of C7 on the bodies all of whose lines longer than six bytes start
with `data: `: with a callback that never fails, the tokens handed to it are the
non-empty contents of the `data: <json>` lines, in order. -/
theorem StreamChatCompletion_tokens_data_lines {σ : Type} (u : Bytes → Option chatChunk)
    (post : Bytes → Except GoError Response) (msg : Bytes)
    (cb : Bytes → σ → σ × Option GoError) (s0 : σ) (resp : Response)
    (hpost : post msg = .ok resp) (h200 : resp.StatusCode = 200)
    (hcb : ∀ t s, (cb t s).2 = none) (hu : u [] = none)
    (hlines : ∀ line ∈ resp.lines, 6 < line.length → ascii "data: " <+: line) :
    (recorded u post msg cb s0).2.2.map Prod.fst = resp.lines.filterMap (specContent u) := by
  rw [StreamChatCompletion_tokens u post msg cb s0 resp hpost h200 hcb]
  apply List.filterMap_congr
  intro line hline
  exact lineToken_eq_specContent u line hu (hlines line hline)

/-- C7.  `StreamChatCompletion` evaluated on a 200 body of three lines, with a
callback that never fails: a `data: ` line carrying the content `he`, the line
`event:` followed directly by a chunk object carrying the content `x`, and
`data: [DONE]`.  The callback receives `he` and then `x`, whereas the contents
of the `data: <json>` lines of this body are `he` alone. -/
theorem StreamChatCompletion_non_data_line :
    (recorded unmarshalCompact
        (streaming [ascii "data: " ++ compactChunk (ascii "he"),
                    ascii "event:" ++ compactChunk (ascii "x"),
                    ascii "data: [DONE]"])
        (ascii "hi") discard ()).2.2.map Prod.fst = [ascii "he", ascii "x"] ∧
    [ascii "data: " ++ compactChunk (ascii "he"),
     ascii "event:" ++ compactChunk (ascii "x"),
     ascii "data: [DONE]"].filterMap (specContent unmarshalCompact) = [ascii "he"] := by
  decide

/-- The two byte counters in terms of the loop's own test: `BytesSent` sums the
tokens handed to `onToken`, `BytesReceived` sums (line length + 1) over the
lines for which a token was handed, these being the first lines passing the
test, as many as there were invocations. -/
theorem recorded_stats {σ : Type} (u : Bytes → Option chatChunk)
    (post : Bytes → Except GoError Response) (msg : Bytes)
    (cb : Bytes → σ → σ × Option GoError) (s0 : σ) (resp : Response)
    (hpost : post msg = .ok resp) (h200 : resp.StatusCode = 200) :
    (recorded u post msg cb s0).1.BytesSent
      = ((recorded u post msg cb s0).2.2.map (fun e => (e.1.length : Int))).sum ∧
    (recorded u post msg cb s0).1.BytesReceived
      = (((resp.lines.filter (handsToken u)).take
            (recorded u post msg cb s0).2.2.length).map (fun l => (l.length : Int) + 1)).sum ∧
    (recorded u post msg cb s0).2.2.map Prod.fst
      = (resp.lines.filterMap (lineToken u)).take (recorded u post msg cb s0).2.2.length ∧
    (resp.lines = [ascii "data: [DONE]"] →
      (recorded u post msg cb s0).2.2 = [] ∧
      (recorded u post msg cb s0).1 = ⟨0, 0, 0, 0⟩) := by
  rw [recorded_ok u post msg cb s0 resp hpost h200]
  obtain ⟨new, h1, h2, h3, h4, -, -⟩ :=
    scanLoop_recording u cb resp.lines Stats.zero s0 [] _ rfl
  simp only [List.nil_append] at h1
  simp only
  rw [h1]
  refine ⟨?_, ?_, h2, ?_⟩
  · rw [h3]; simp [Stats.zero]
  · rw [h4]; simp [Stats.zero]
  · intro hl
    have hlt : lineToken u (ascii "data: [DONE]") = none := by simp [lineToken]
    have hwu : withUsage u (ascii "data: [DONE]") Stats.zero = Stats.zero := by
      simp [withUsage]
    rw [← h1, hl, scanLoop_cons, hlt]
    simp only [hwu]
    rw [scanLoop]
    exact ⟨rfl, rfl⟩

theorem recorded_calls_complete {σ : Type} (u : Bytes → Option chatChunk)
    (post : Bytes → Except GoError Response) (msg : Bytes)
    (cb : Bytes → σ → σ × Option GoError) (s0 : σ) (resp : Response)
    (hpost : post msg = .ok resp) (h200 : resp.StatusCode = 200)
    (hnone : ∀ x ∈ (recorded u post msg cb s0).2.2, x.2 = none) :
    (recorded u post msg cb s0).2.2.length = (resp.lines.filterMap (lineToken u)).length := by
  rw [recorded_ok u post msg cb s0 resp hpost h200] at hnone ⊢
  obtain ⟨new, h1, -, -, -, h5, h6⟩ :=
    scanLoop_recording u cb resp.lines Stats.zero s0 [] _ rfl
  simp only [List.nil_append] at h1
  simp only at hnone ⊢
  rw [h1] at hnone ⊢
  cases herr : (scanLoop u (recording cb) resp.lines Stats.zero (s0, [])).2.2 with
  | none => exact (h5 herr).1
  | some e =>
    obtain ⟨init, tok, hnew, -⟩ := h6 e herr
    have := hnone (tok, some e) (by rw [hnew]; simp)
    simp at this

theorem length_filter_handsToken (u : Bytes → Option chatChunk) (lines : List Bytes) :
    (lines.filter (handsToken u)).length = (lines.filterMap (lineToken u)).length := by
  induction lines with
  | nil => rfl
  | cons line rest ih =>
    cases hlt : lineToken u line with
    | none =>
      rw [List.filterMap_cons_none hlt, List.filter_cons_of_neg (by simp [handsToken, hlt])]
      exact ih
    | some tok =>
      rw [List.filterMap_cons_some hlt, List.filter_cons_of_pos (by simp [handsToken, hlt])]
      simp [ih]

/-- C8, as claimed, fails: on the 200 body with the three content-bearing lines
`data: {..a..}`, `data: {..b..}`, `data: {..c..}` and a callback failing on its
second invocation, the stats returned have `BytesReceived = 92` (the first two
lines), while (line length + 1) summed over the content-bearing lines of the
body is 138. -/
theorem StreamChatCompletion_stats_failing_callback :
    (recorded unmarshalCompact
        (streaming [ascii "data: " ++ compactChunk (ascii "a"),
                    ascii "data: " ++ compactChunk (ascii "b"),
                    ascii "data: " ++ compactChunk (ascii "c")])
        (ascii "hi") (failOn 2 ⟨ascii "closed"⟩) 0).1.BytesReceived = 92 ∧
    (([ascii "data: " ++ compactChunk (ascii "a"),
       ascii "data: " ++ compactChunk (ascii "b"),
       ascii "data: " ++ compactChunk (ascii "c")].filter
        (contentBearingLine unmarshalCompact)).map (fun l => (l.length : Int) + 1)).sum = 138 ∧
    (recorded unmarshalCompact
        (streaming [ascii "data: " ++ compactChunk (ascii "a"),
                    ascii "data: " ++ compactChunk (ascii "b"),
                    ascii "data: " ++ compactChunk (ascii "c")])
        (ascii "hi") (failOn 2 ⟨ascii "closed"⟩) 0).1.BytesReceived
      ≠ (([ascii "data: " ++ compactChunk (ascii "a"),
           ascii "data: " ++ compactChunk (ascii "b"),
           ascii "data: " ++ compactChunk (ascii "c")].filter
            (contentBearingLine unmarshalCompact)).map (fun l => (l.length : Int) + 1)).sum := by
  decide

/-- C8, amended.  For every upstream 200 body all of whose lines longer than six
bytes start with `data: ` (the decoder rejecting the empty text), and every
callback: `BytesSent` is the sum of the lengths of the tokens handed to
`onToken`; these tokens are the contents of the first content-bearing lines
(`data: <json>` lines with non-empty content), as many as there were
invocations, and `BytesReceived` is the sum of (line length + 1) over those
lines; when no invocation returned an error, they are all the content-bearing
lines of the body; and a body consisting only of `data: [DONE]` yields no
invocation and stats all zero. -/
theorem StreamChatCompletion_stats {σ : Type} (u : Bytes → Option chatChunk)
    (post : Bytes → Except GoError Response) (msg : Bytes)
    (cb : Bytes → σ → σ × Option GoError) (s0 : σ) (resp : Response)
    (hpost : post msg = .ok resp) (h200 : resp.StatusCode = 200) (hu : u [] = none)
    (hlines : ∀ line ∈ resp.lines, 6 < line.length → ascii "data: " <+: line) :
    (recorded u post msg cb s0).1.BytesSent
      = ((recorded u post msg cb s0).2.2.map (fun e => (e.1.length : Int))).sum ∧
    (recorded u post msg cb s0).2.2.map Prod.fst
      = (resp.lines.filterMap (specContent u)).take (recorded u post msg cb s0).2.2.length ∧
    (recorded u post msg cb s0).1.BytesReceived
      = (((resp.lines.filter (contentBearingLine u)).take
            (recorded u post msg cb s0).2.2.length).map (fun l => (l.length : Int) + 1)).sum ∧
    ((∀ x ∈ (recorded u post msg cb s0).2.2, x.2 = none) →
      (recorded u post msg cb s0).2.2.map Prod.fst = resp.lines.filterMap (specContent u) ∧
      (recorded u post msg cb s0).1.BytesReceived
        = ((resp.lines.filter (contentBearingLine u)).map
            (fun l => (l.length : Int) + 1)).sum) ∧
    (resp.lines = [ascii "data: [DONE]"] →
      (recorded u post msg cb s0).2.2 = [] ∧
      (recorded u post msg cb s0).1 = ⟨0, 0, 0, 0⟩) := by
  have hfm : resp.lines.filterMap (lineToken u) = resp.lines.filterMap (specContent u) := by
    apply List.filterMap_congr
    intro line hline
    exact lineToken_eq_specContent u line hu (hlines line hline)
  have hfl : resp.lines.filter (handsToken u) = resp.lines.filter (contentBearingLine u) := by
    apply List.filter_congr
    intro line hline
    simp only [handsToken, contentBearingLine,
      lineToken_eq_specContent u line hu (hlines line hline)]
  obtain ⟨hs, hr, ht, hd⟩ := recorded_stats u post msg cb s0 resp hpost h200
  refine ⟨hs, by rw [ht, hfm], by rw [hr, hfl], ?_, hd⟩
  intro hnone
  have hlen := recorded_calls_complete u post msg cb s0 resp hpost h200 hnone
  constructor
  · rw [ht, hlen, List.take_length, hfm]
  · rw [hr, hlen, ← length_filter_handsToken, List.take_length, hfl]

theorem StreamChatCompletion_stats_witness :
    (recorded unmarshalCompact
        (streaming [ascii "data: " ++ compactChunk (ascii "he"), [],
                    ascii "data: " ++ compactChunk (ascii "llo"), ascii "data: [DONE]"])
        (ascii "hi") discard ()).1 = ⟨95, 5, 0, 0⟩ ∧
    (recorded unmarshalCompact
        (streaming [ascii "data: " ++ compactChunk (ascii "he"), [],
                    ascii "data: " ++ compactChunk (ascii "llo"), ascii "data: [DONE]"])
        (ascii "hi") discard ()).2.2.map Prod.fst = [ascii "he", ascii "llo"] ∧
    (recorded unmarshalCompact
        (streaming [ascii "data: " ++ compactChunk (ascii "he"), [],
                    ascii "data: " ++ compactChunk (ascii "llo"), ascii "data: [DONE]"])
        (ascii "hi") discard ()).1.BytesReceived
      = (([ascii "data: " ++ compactChunk (ascii "he"), [],
           ascii "data: " ++ compactChunk (ascii "llo"), ascii "data: [DONE]"].filter
            (contentBearingLine unmarshalCompact)).map (fun l => (l.length : Int) + 1)).sum ∧
    (recorded unmarshalCompact (streaming [ascii "data: [DONE]"]) (ascii "hi") discard ()).2.2 = [] ∧
    (recorded unmarshalCompact (streaming [ascii "data: [DONE]"]) (ascii "hi") discard ()).1
      = ⟨0, 0, 0, 0⟩ := by
  have h := StreamChatCompletion_stats unmarshalCompact
    (streaming [ascii "data: " ++ compactChunk (ascii "he"), [],
                ascii "data: " ++ compactChunk (ascii "llo"), ascii "data: [DONE]"])
    (ascii "hi") discard () _ rfl rfl (by decide) (by decide)
  have h0 := StreamChatCompletion_stats unmarshalCompact (streaming [ascii "data: [DONE]"])
    (ascii "hi") discard () _ rfl rfl (by decide) (by decide)
  exact ⟨by decide, by decide, (h.2.2.2.1 (by decide)).2, (h0.2.2.2.2 rfl).1,
    (h0.2.2.2.2 rfl).2⟩

/-- C9.  If `onToken` returns the error `e` on its invocation number `k + 1`,
then `StreamChatCompletion` returns that same error `e`, and `onToken` is
invoked exactly `k + 1` times in all: no later line produces a token. -/
theorem StreamChatCompletion_callback_error {σ : Type} (u : Bytes → Option chatChunk)
    (post : Bytes → Except GoError Response) (msg : Bytes)
    (cb : Bytes → σ → σ × Option GoError) (s0 : σ) (k : Nat) (tok : Bytes) (e : GoError)
    (hk : (recorded u post msg cb s0).2.2[k]? = some (tok, some e)) :
    (recorded u post msg cb s0).2.1 = some e ∧
    (recorded u post msg cb s0).2.2.length = k + 1 := by
  by_cases hok : ∃ resp, post msg = .ok resp ∧ resp.StatusCode = 200
  · obtain ⟨resp, hpost, h200⟩ := hok
    rw [recorded_ok u post msg cb s0 resp hpost h200] at hk ⊢
    obtain ⟨new, h1, -, -, -, h5, h6⟩ :=
      scanLoop_recording u cb resp.lines Stats.zero s0 [] _ rfl
    simp only [List.nil_append] at h1
    simp only at hk ⊢
    rw [h1] at hk ⊢
    cases herr : (scanLoop u (recording cb) resp.lines Stats.zero (s0, [])).2.2 with
    | none =>
      have hx := (h5 herr).2 _ (List.getElem?_mem hk)
      simp at hx
    | some e1 =>
      obtain ⟨init, tk, hnew, hinit⟩ := h6 e1 herr
      rw [hnew] at hk ⊢
      rcases Nat.lt_trichotomy k init.length with hlt | heq | hgt
      · rw [List.getElem?_append_left hlt] at hk
        have hx := hinit _ (List.getElem?_mem hk)
        simp at hx
      · subst heq
        simp at hk
        simp [hk.2]
      · rw [List.getElem?_append_right (by omega)] at hk
        have : k - init.length = (k - init.length - 1) + 1 := by omega
        rw [this] at hk
        simp at hk
  · have hnil := recorded_not_ok u post msg cb s0 (fun resp hp h2 => hok ⟨resp, hp, h2⟩)
    rw [hnil] at hk
    simp at hk

theorem StreamChatCompletion_callback_error_witness :
    (recorded unmarshalCompact
        (streaming [ascii "data: " ++ compactChunk (ascii "a"),
                    ascii "data: " ++ compactChunk (ascii "b"),
                    ascii "data: " ++ compactChunk (ascii "c")])
        (ascii "hi") (failOn 2 ⟨ascii "closed"⟩) 0).2.2[1]?
      = some (ascii "b", some ⟨ascii "closed"⟩) ∧
    (recorded unmarshalCompact
        (streaming [ascii "data: " ++ compactChunk (ascii "a"),
                    ascii "data: " ++ compactChunk (ascii "b"),
                    ascii "data: " ++ compactChunk (ascii "c")])
        (ascii "hi") (failOn 2 ⟨ascii "closed"⟩) 0).2.1 = some ⟨ascii "closed"⟩ ∧
    (recorded unmarshalCompact
        (streaming [ascii "data: " ++ compactChunk (ascii "a"),
                    ascii "data: " ++ compactChunk (ascii "b"),
                    ascii "data: " ++ compactChunk (ascii "c")])
        (ascii "hi") (failOn 2 ⟨ascii "closed"⟩) 0).2.2.length = 1 + 1 :=
  ⟨by decide,
    StreamChatCompletion_callback_error unmarshalCompact _ (ascii "hi")
      (failOn 2 ⟨ascii "closed"⟩) 0 1 (ascii "b") ⟨ascii "closed"⟩ (by decide)⟩

end llm

theorem infix_split (w a b : Bytes) (c : Nat) (hc : c ∉ w) (h : w <:+: a ++ c :: b) :
    w <:+: a ∨ w <:+: b := by
  obtain ⟨s, t, hst⟩ := h
  rcases List.append_eq_append_iff.mp hst with ⟨a1, ha, ht⟩ | ⟨c1, hc1, hcb⟩
  · exact Or.inl ⟨s, a1, ha.symm⟩
  · cases c1 with
    | nil =>
      simp only [List.append_nil] at hc1
      exact Or.inl ⟨s, [], by simp [hc1]⟩
    | cons x c2 =>
      simp only [List.cons_append, List.cons.injEq] at hcb
      obtain ⟨hx, hb⟩ := hcb
      subst hx
      rcases List.append_eq_append_iff.mp hc1 with ⟨a2, ha2, hw⟩ | ⟨x1, hs, hcw⟩
      · exact absurd (by rw [hw]; simp) hc
      · cases x1 with
        | nil =>
          simp only [List.nil_append] at hcw
          exact absurd (by rw [← hcw]; simp) hc
        | cons y x2 =>
          simp only [List.cons_append, List.cons.injEq] at hcw
          obtain ⟨-, hc2⟩ := hcw
          exact Or.inr ⟨x2, t, by rw [hb, hc2]⟩

namespace httpserver

theorem event_eq (p : Bytes) : event p = ascii "data:" ++ 32 :: (p ++ 10 :: 10 :: []) := by
  simp [event, ascii]

theorem doneText_not_infix_events (payloads : List Bytes)
    (h : ∀ p ∈ payloads, ¬ doneText <:+: p) :
    ¬ doneText <:+: (payloads.map event).flatten ++ ascii "data:" := by
  induction payloads with
  | nil =>
    intro hin
    have := hin.length_le
    simp [doneText, ascii] at this
  | cons p ps ih =>
    intro hin
    have h32 : 32 ∉ doneText := by decide
    have h10 : 10 ∉ doneText := by decide
    have hshape : ((p :: ps).map event).flatten ++ ascii "data:"
        = ascii "data:" ++ 32 :: (p ++ 10 :: ([] ++ 10 :: ((ps.map event).flatten ++ ascii "data:"))) := by
      simp [event_eq]
    rw [hshape] at hin
    rcases infix_split _ _ _ 32 h32 hin with h1 | h1
    · have := h1.length_le
      simp [doneText, ascii] at this
    · rcases infix_split _ _ _ 10 h10 h1 with h2 | h2
      · exact h p (List.mem_cons_self _ _) h2
      · rcases infix_split _ _ _ 10 h10 h2 with h3 | h3
        · have := h3.length_le
          simp [doneText, ascii] at this
        · exact ih (fun q hq => h q (List.mem_cons_of_mem _ hq)) h3

theorem singleDoneAtEnd_events (payloads : List Bytes)
    (h : ∀ p ∈ payloads, ¬ doneText <:+: p) :
    singleDoneAtEnd ((payloads.map event).flatten ++ doneEvent) := by
  refine ⟨List.suffix_append _ _, ?_⟩
  intro i hi hpre
  generalize hP : (payloads.map event).flatten = pre at hi hpre
  have hlen : i < pre.length := by
    simp only [List.length_append] at hi
    omega
  -- the occurrence of the event at position `i` puts `[DONE]` before the final `]`
  have hbody : pre ++ doneEvent = (pre ++ ascii "data: [DONE") ++ ascii "]\n\n" := by
    simp [doneEvent, ascii]
  obtain ⟨t, ht⟩ := hpre
  have hsplit : (pre ++ doneEvent).take i ++ (doneEvent ++ t) = pre ++ doneEvent := by
    rw [ht, List.take_append_drop]
  have hdone : doneEvent = ascii "data: " ++ doneText ++ ascii "\n\n" := by decide
  have hkey : doneEvent ++ t = ascii "data: " ++ (doneText ++ (ascii "\n\n" ++ t)) := by
    rw [hdone]
    simp only [List.append_assoc]
  have hp1 : ((pre ++ doneEvent).take i ++ ascii "data: " ++ doneText) <+: pre ++ doneEvent :=
    ⟨ascii "\n\n" ++ t, by simp only [List.append_assoc]; rw [← hkey]; exact hsplit⟩
  have hp2 : (pre ++ ascii "data: [DONE") <+: pre ++ doneEvent := ⟨ascii "]\n\n", hbody.symm⟩
  have hle : ((pre ++ doneEvent).take i ++ ascii "data: " ++ doneText).length
      ≤ (pre ++ ascii "data: [DONE").length := by
    simp [doneText, doneEvent, ascii]
    omega
  have hp3 := List.prefix_of_prefix_length_le hp1 hp2 hle
  have hin : doneText <:+: pre ++ ascii "data: [DONE" := by
    obtain ⟨t3, ht3⟩ := hp3
    exact ⟨(pre ++ doneEvent).take i ++ ascii "data: ", t3, by rw [← ht3]⟩
  have hshape : pre ++ ascii "data: [DONE" = (pre ++ ascii "data:") ++ 32 :: ascii "[DONE" := by
    simp [ascii]
  rw [hshape] at hin
  rcases infix_split _ _ _ 32 (by decide) hin with h1 | h1
  · rw [← hP] at h1
    exact doneText_not_infix_events payloads h h1
  · have := h1.length_le
    simp [doneText, ascii] at this


theorem Writer_Write_unlimited (w : Writer) (p : Bytes) (h : w.room = none) :
    w.Write p = ({ w with out := w.out ++ p }, none) := by
  unfold Writer.Write
  rw [h]

theorem Writer_Write_mk (out p : Bytes) (failure : GoError) :
    Writer.Write ⟨out, none, failure⟩ p = (⟨out ++ p, none, failure⟩, none) := rfl

theorem message_Write_mk (out msg : Bytes) (failure : GoError) :
    message.Write ⟨out, none, failure⟩ msg = (⟨out ++ message.frame msg, none, failure⟩, none) := by
  rw [message.Write_unlimited _ _ rfl]

theorem writeEvent_unlimited (tok : Bytes) (w : Writer) (h : w.room = none) :
    writeEvent tok w = ({ w with out := w.out ++ event tok }, none) := by
  unfold writeEvent
  rw [Writer_Write_unlimited w _ h]
  rfl

/-- C5, as claimed, fails: for the POST request `{"message":"hi"}` and an
upstream whose only chunk carries the content `[DONE]`, the response body is
`data: [DONE]\n\ndata: [DONE]\n\n`, in which the end-of-response event also
occurs before the end. -/
theorem handleChat_done_token :
    ¬ singleDoneAtEnd
      (handleChat decodeCompactRequest llm.unmarshalCompact
        (llm.streaming [ascii "data: " ++ llm.compactChunk (ascii "[DONE]")])
        freshResponse ⟨ascii "POST", ascii "\x7b\"message\":\"hi\"\x7d"⟩).body.out := by
  decide

/-- C5, amended.  For every accepted request (POST, message decoded and
non-empty, response writer able to flush) answered on an empty response body
whose writes succeed, and whatever the adapter does: the body is the events
`data: <token>\n\n` of the tokens handed to the callback, in order, then on
adapter failure the event of `\n[error: <msg>]`, then the end-of-response event
`data: [DONE]\n\n`; and when none of these tokens and error texts contains
`[DONE]`, the end-of-response event occurs in the body at the end only. -/
theorem handleChat_body (decodeRequest : Bytes → Option Bytes)
    (u : Bytes → Option llm.chatChunk) (post : Bytes → Except GoError llm.Response)
    (w : ResponseWriter) (r : Request) (message : Bytes)
    (hm : r.Method = ascii "POST") (hd : decodeRequest r.Body = some message)
    (hne : message ≠ []) (hfl : w.flusher = true)
    (hout : w.body.out = []) (hroom : w.body.room = none) :
    (handleChat decodeRequest u post w r).body.out
      = ((((llm.recorded u post message writeEvent w.body).2.2.map Prod.fst
            ++ llm.errorPayloads (llm.recorded u post message writeEvent w.body).2.1).map
          event).flatten ++ doneEvent) ∧
    ((∀ p ∈ (llm.recorded u post message writeEvent w.body).2.2.map Prod.fst
            ++ llm.errorPayloads (llm.recorded u post message writeEvent w.body).2.1,
          ¬ doneText <:+: p) →
      singleDoneAtEnd (handleChat decodeRequest u post w r).body.out) := by
  have hbody : (handleChat decodeRequest u post w r).body.out
      = ((((llm.recorded u post message writeEvent w.body).2.2.map Prod.fst
            ++ llm.errorPayloads (llm.recorded u post message writeEvent w.body).2.1).map
          event).flatten ++ doneEvent) := by
    obtain ⟨hW, -, -⟩ := llm.StreamChatCompletion_writer u event writeEvent
      writeEvent_unlimited post message w.body hroom
    obtain ⟨-, hE⟩ := llm.recorded_eq u post message writeEvent w.body
    unfold handleChat
    rw [if_neg (not_not.mpr hm)]
    simp only [hd]
    rw [if_neg hne, if_neg (by simp [hfl])]
    simp only [setHeader]
    rw [hW, ← hE]
    cases (llm.recorded u post message writeEvent w.body).2.1 with
    | none =>
      simp only [llm.errorPayloads, List.append_nil, hroom, Writer_Write_mk]
      simp [hout]
    | some err =>
      simp only [llm.errorPayloads, hroom, Writer_Write_mk]
      simp [hout, event, llm.errorPayload, ascii]
  refine ⟨hbody, ?_⟩
  intro hno
  rw [hbody]
  exact singleDoneAtEnd_events _ hno

theorem handleChat_body_witness :
    (handleChat decodeCompactRequest llm.unmarshalCompact
        (llm.streaming [ascii "data: " ++ llm.compactChunk (ascii "hel"),
                        ascii "data: " ++ llm.compactChunk (ascii "lo")])
        freshResponse ⟨ascii "POST", ascii "\x7b\"message\":\"hi\"\x7d"⟩).body.out
      = ascii "data: hel\n\ndata: lo\n\ndata: [DONE]\n\n" ∧
    singleDoneAtEnd
      (handleChat decodeCompactRequest llm.unmarshalCompact
        (llm.streaming [ascii "data: " ++ llm.compactChunk (ascii "hel"),
                        ascii "data: " ++ llm.compactChunk (ascii "lo")])
        freshResponse ⟨ascii "POST", ascii "\x7b\"message\":\"hi\"\x7d"⟩).body.out := by
  have h := handleChat_body decodeCompactRequest llm.unmarshalCompact
    (llm.streaming [ascii "data: " ++ llm.compactChunk (ascii "hel"),
                    ascii "data: " ++ llm.compactChunk (ascii "lo")])
    freshResponse ⟨ascii "POST", ascii "\x7b\"message\":\"hi\"\x7d"⟩ (ascii "hi")
    rfl (by decide) (by decide) rfl rfl rfl
  exact ⟨by decide, h.2 (by decide)⟩

end httpserver

namespace server

/-- The stream loop always ends within `reader.length + 1` iterations. -/
theorem streamLoop_total (u : Bytes → Option llm.chatChunk)
    (upstream : Nat → Bytes → Except GoError llm.Response) :
    ∀ (fuel k : Nat) (reader : Bytes) (stream : Writer), reader.length < fuel →
      ∃ x, streamLoop u upstream fuel k reader stream = some x := by
  intro fuel
  induction fuel with
  | zero => intro k reader stream h; omega
  | succ f ih =>
    intro k reader stream h
    rw [streamLoop]
    rcases hrd : message.Read reader with ⟨out, r1⟩
    cases out with
    | panic => exact ⟨_, rfl⟩
    | error e => exact ⟨_, rfl⟩
    | value m =>
      have := message.Read_value_shorter reader m r1 hrd
      simp only
      rcases respond u (upstream k) m stream with ⟨s1, e⟩
      cases e with
      | some e => exact ⟨_, rfl⟩
      | none => exact ih _ r1 _ (by omega)

theorem handleStream_total (u : Bytes → Option llm.chatChunk)
    (upstream : Nat → Bytes → Except GoError llm.Response) (reader : Bytes) (stream : Writer) :
    ∃ x, handleStream u upstream reader stream = some x :=
  streamLoop_total u upstream _ 0 reader stream (by omega)

theorem Write_callback_unlimited (tok : Bytes) (w : Writer) (h : w.room = none) :
    (fun token w => message.Write w token) tok w
      = ({ w with out := w.out ++ message.frame tok }, none) :=
  message.Write_unlimited w tok h

/-- The answer to one prompt on a stream whose writes succeed: the frames of the
tokens handed to the callback, in order, then on adapter failure the frame of
`\n[error: <msg>]`, then the empty frame `0:`; every payload before the empty
frame has length at least 1; and the final write reports no error. -/
theorem respond_frames (u : Bytes → Option llm.chatChunk)
    (post : Bytes → Except GoError llm.Response) (msg : Bytes) (stream : Writer)
    (hroom : stream.room = none) :
    (respond u post msg stream).2 = none ∧
    (respond u post msg stream).1.out
      = stream.out ++
        (((llm.recorded u post msg (fun token w => message.Write w token) stream).2.2.map Prod.fst
            ++ llm.errorPayloads
              (llm.recorded u post msg (fun token w => message.Write w token) stream).2.1
            ++ [[]]).map message.frame).flatten ∧
    message.frame [] = ascii "0:" ∧
    (∀ p ∈ (llm.recorded u post msg (fun token w => message.Write w token) stream).2.2.map Prod.fst
          ++ llm.errorPayloads
            (llm.recorded u post msg (fun token w => message.Write w token) stream).2.1,
      1 ≤ p.length) := by
  obtain ⟨hW, hT, -⟩ := llm.StreamChatCompletion_writer u message.frame
    (fun token w => message.Write w token) Write_callback_unlimited post msg stream hroom
  obtain ⟨-, hE⟩ := llm.recorded_eq u post msg (fun token w => message.Write w token) stream
  have hresp : respond u post msg stream
      = ({ stream with out := stream.out ++
            (((llm.recorded u post msg (fun token w => message.Write w token) stream).2.2.map
                  Prod.fst
                ++ llm.errorPayloads
                  (llm.recorded u post msg (fun token w => message.Write w token) stream).2.1
                ++ [[]]).map message.frame).flatten }, none) := by
    unfold respond
    simp only
    rw [hW, ← hE]
    cases (llm.recorded u post msg (fun token w => message.Write w token) stream).2.1 with
    | none =>
      simp only [llm.errorPayloads, List.append_nil, hroom, httpserver.message_Write_mk]
      simp [hroom]
    | some err =>
      simp only [llm.errorPayloads, hroom, httpserver.message_Write_mk]
      simp [llm.errorPayload, hroom]
  rw [hresp]
  refine ⟨rfl, rfl, by decide, ?_⟩
  intro p hp
  rcases List.mem_append.mp hp with h1 | h1
  · have := hT p h1
    cases p with
    | nil => exact absurd rfl this
    | cons a t => simp
  · cases hErr : (llm.recorded u post msg (fun token w => message.Write w token) stream).2.1 with
    | none => rw [hErr] at h1; simp [llm.errorPayloads] at h1
    | some err =>
      rw [hErr] at h1
      simp only [llm.errorPayloads, List.mem_singleton] at h1
      rw [h1]
      simp [llm.errorPayload, ascii]

theorem respond_eq (u : Bytes → Option llm.chatChunk)
    (post : Bytes → Except GoError llm.Response) (msg : Bytes) (stream : Writer)
    (hroom : stream.room = none) :
    respond u post msg stream
      = ({ stream with out := stream.out ++
            (((llm.recorded u post msg (fun token w => message.Write w token) stream).2.2.map
                  Prod.fst
                ++ llm.errorPayloads
                  (llm.recorded u post msg (fun token w => message.Write w token) stream).2.1
                ++ [[]]).map message.frame).flatten }, none) := by
  obtain ⟨h1, h2, -, -⟩ := respond_frames u post msg stream hroom
  obtain ⟨hW, -, -⟩ := llm.StreamChatCompletion_writer u message.frame
    (fun token w => message.Write w token) Write_callback_unlimited post msg stream hroom
  have hrest : (respond u post msg stream).1.room = stream.room ∧
      (respond u post msg stream).1.failure = stream.failure := by
    unfold respond
    simp only
    rw [hW]
    cases (llm.StreamChatCompletion u post msg (fun token w => message.Write w token)
        stream).2.1 with
    | none => simp [hroom, httpserver.message_Write_mk]
    | some err => simp [hroom, httpserver.message_Write_mk]
  rcases hr : respond u post msg stream with ⟨⟨out, room, failure⟩, e⟩
  rw [hr] at h1 h2 hrest
  simp only at h1 h2 hrest
  rw [h1, h2, hrest.1, hrest.2]

/-- What the stream loop has written when it ends extends what was written
when it started. -/
theorem streamLoop_extends (u : Bytes → Option llm.chatChunk)
    (upstream : Nat → Bytes → Except GoError llm.Response) :
    ∀ (fuel k : Nat) (reader : Bytes) (stream w : Writer) (fin : StreamEnd),
      stream.room = none → streamLoop u upstream fuel k reader stream = some (w, fin) →
      stream.out <+: w.out := by
  intro fuel
  induction fuel with
  | zero =>
    intro k reader stream w fin _ h
    simp [streamLoop] at h
  | succ f ih =>
    intro k reader stream w fin hroom h
    rw [streamLoop] at h
    rcases hrd : message.Read reader with ⟨res, r1⟩
    rw [hrd] at h
    cases res with
    | panic =>
      simp only [Option.some.injEq, Prod.mk.injEq] at h
      rw [← h.1]
    | error e =>
      simp only [Option.some.injEq, Prod.mk.injEq] at h
      rw [← h.1]
    | value m =>
      simp only at h
      rw [respond_eq u (upstream k) m stream hroom] at h
      simp only at h
      have hstep := ih (k + 1) r1 _ w fin (by exact hroom) h
      exact List.IsPrefix.trans ⟨_, rfl⟩ hstep

/-- C6.  For every prompt frame the stream handler reads successfully (at any
iteration `k` of its loop, `msg` being the prompt read and `reader1` the reader
after it), on a stream whose writes succeed, and whatever the adapter does: the
handler appends to the stream exactly the frames of the tokens handed to the
callback, in order, then on adapter failure the frame of `\n[error: <msg>]`,
then the empty frame `0:`, and goes on to read the next prompt; these bytes stay
in what the handler has written when it ends; every payload before the empty
frame has length at least 1. -/
theorem streamLoop_response (u : Bytes → Option llm.chatChunk)
    (upstream : Nat → Bytes → Except GoError llm.Response) (k : Nat)
    (reader stream_out msg reader1 : Bytes) (failure : GoError)
    (hread : message.Read reader = (.value msg, reader1)) :
    (∀ fuel, streamLoop u upstream (fuel + 1) k reader ⟨stream_out, none, failure⟩
      = streamLoop u upstream fuel (k + 1) reader1
          ⟨stream_out ++
            (((llm.recorded u (upstream k) msg (fun token w => message.Write w token)
                  ⟨stream_out, none, failure⟩).2.2.map Prod.fst
                ++ llm.errorPayloads
                  (llm.recorded u (upstream k) msg (fun token w => message.Write w token)
                    ⟨stream_out, none, failure⟩).2.1
                ++ [[]]).map message.frame).flatten, none, failure⟩) ∧
    (∀ fuel, reader.length < fuel →
      ∃ w fin, streamLoop u upstream fuel k reader ⟨stream_out, none, failure⟩ = some (w, fin) ∧
        stream_out ++
            (((llm.recorded u (upstream k) msg (fun token w => message.Write w token)
                  ⟨stream_out, none, failure⟩).2.2.map Prod.fst
                ++ llm.errorPayloads
                  (llm.recorded u (upstream k) msg (fun token w => message.Write w token)
                    ⟨stream_out, none, failure⟩).2.1
                ++ [[]]).map message.frame).flatten <+: w.out) ∧
    (k = 0 →
      ∃ w fin, handleStream u upstream reader ⟨stream_out, none, failure⟩ = some (w, fin) ∧
        stream_out ++
            (((llm.recorded u (upstream 0) msg (fun token w => message.Write w token)
                  ⟨stream_out, none, failure⟩).2.2.map Prod.fst
                ++ llm.errorPayloads
                  (llm.recorded u (upstream 0) msg (fun token w => message.Write w token)
                    ⟨stream_out, none, failure⟩).2.1
                ++ [[]]).map message.frame).flatten <+: w.out) ∧
    message.frame [] = ascii "0:" ∧
    (∀ p ∈ (llm.recorded u (upstream k) msg (fun token w => message.Write w token)
              ⟨stream_out, none, failure⟩).2.2.map Prod.fst
          ++ llm.errorPayloads
            (llm.recorded u (upstream k) msg (fun token w => message.Write w token)
              ⟨stream_out, none, failure⟩).2.1,
      1 ≤ p.length) := by
  have hstep : ∀ fuel, streamLoop u upstream (fuel + 1) k reader ⟨stream_out, none, failure⟩
      = streamLoop u upstream fuel (k + 1) reader1
          ⟨stream_out ++
            (((llm.recorded u (upstream k) msg (fun token w => message.Write w token)
                  ⟨stream_out, none, failure⟩).2.2.map Prod.fst
                ++ llm.errorPayloads
                  (llm.recorded u (upstream k) msg (fun token w => message.Write w token)
                    ⟨stream_out, none, failure⟩).2.1
                ++ [[]]).map message.frame).flatten, none, failure⟩ := by
    intro fuel
    rw [streamLoop, hread]
    simp only
    rw [respond_eq u (upstream k) msg ⟨stream_out, none, failure⟩ rfl]
  have hshort := message.Read_value_shorter reader msg reader1 hread
  have hfinal : ∀ fuel, reader.length < fuel →
      ∃ w fin, streamLoop u upstream fuel k reader ⟨stream_out, none, failure⟩ = some (w, fin) ∧
        stream_out ++
            (((llm.recorded u (upstream k) msg (fun token w => message.Write w token)
                  ⟨stream_out, none, failure⟩).2.2.map Prod.fst
                ++ llm.errorPayloads
                  (llm.recorded u (upstream k) msg (fun token w => message.Write w token)
                    ⟨stream_out, none, failure⟩).2.1
                ++ [[]]).map message.frame).flatten <+: w.out := by
    intro fuel hfuel
    cases fuel with
    | zero => omega
    | succ f =>
      rw [hstep f]
      obtain ⟨⟨w, fin⟩, hx⟩ := streamLoop_total u upstream f (k + 1) reader1
        ⟨stream_out ++
            (((llm.recorded u (upstream k) msg (fun token w => message.Write w token)
                  ⟨stream_out, none, failure⟩).2.2.map Prod.fst
                ++ llm.errorPayloads
                  (llm.recorded u (upstream k) msg (fun token w => message.Write w token)
                    ⟨stream_out, none, failure⟩).2.1
                ++ [[]]).map message.frame).flatten, none, failure⟩ (by omega)
      exact ⟨w, fin, hx, streamLoop_extends u upstream f (k + 1) reader1 _ w fin rfl hx⟩
  refine ⟨hstep, hfinal, ?_, ?_⟩
  · intro hk
    subst hk
    exact hfinal (reader.length + 1) (by omega)
  · exact (respond_frames u (upstream k) msg ⟨stream_out, none, failure⟩ rfl).2.2

theorem streamLoop_response_witness :
    message.Read (ascii "4:ping2:hi") = (.value (ascii "ping"), ascii "2:hi") ∧
    handleStream llm.unmarshalCompact
        (fun k => if k = 0 then
            llm.streaming [ascii "data: " ++ llm.compactChunk (ascii "p"),
                           ascii "data: " ++ llm.compactChunk (ascii "o"),
                           ascii "data: " ++ llm.compactChunk (ascii "n"),
                           ascii "data: " ++ llm.compactChunk (ascii "g"),
                           ascii "data: [DONE]"]
          else fun _ => .ok ⟨500, ascii "boom", [], none⟩)
        (ascii "4:ping2:hi") ⟨[], none, ⟨[]⟩⟩
      = some (⟨ascii "1:p1:o1:n1:g0:29:\n[error: API error 500: boom]0:", none, ⟨[]⟩⟩,
          .returned) ∧
    (∃ w fin, handleStream llm.unmarshalCompact
        (fun k => if k = 0 then
            llm.streaming [ascii "data: " ++ llm.compactChunk (ascii "p"),
                           ascii "data: " ++ llm.compactChunk (ascii "o"),
                           ascii "data: " ++ llm.compactChunk (ascii "n"),
                           ascii "data: " ++ llm.compactChunk (ascii "g"),
                           ascii "data: [DONE]"]
          else fun _ => .ok ⟨500, ascii "boom", [], none⟩)
        (ascii "4:ping2:hi") ⟨[], none, ⟨[]⟩⟩ = some (w, fin) ∧
      ascii "1:p1:o1:n1:g0:" <+: w.out) := by
  have h := streamLoop_response llm.unmarshalCompact
    (fun k => if k = 0 then
        llm.streaming [ascii "data: " ++ llm.compactChunk (ascii "p"),
                       ascii "data: " ++ llm.compactChunk (ascii "o"),
                       ascii "data: " ++ llm.compactChunk (ascii "n"),
                       ascii "data: " ++ llm.compactChunk (ascii "g"),
                       ascii "data: [DONE]"]
      else fun _ => .ok ⟨500, ascii "boom", [], none⟩)
    0 (ascii "4:ping2:hi") [] (ascii "ping") (ascii "2:hi") ⟨[]⟩ (by decide)
  refine ⟨by decide, by decide, ?_⟩
  obtain ⟨w, fin, hw, hpre⟩ := h.2.2.1 rfl
  refine ⟨w, fin, hw, ?_⟩
  have hbytes : ascii "1:p1:o1:n1:g0:" = [] ++
      (((llm.recorded llm.unmarshalCompact
            (llm.streaming [ascii "data: " ++ llm.compactChunk (ascii "p"),
                            ascii "data: " ++ llm.compactChunk (ascii "o"),
                            ascii "data: " ++ llm.compactChunk (ascii "n"),
                            ascii "data: " ++ llm.compactChunk (ascii "g"),
                            ascii "data: [DONE]"])
            (ascii "ping") (fun token w => message.Write w token)
            ⟨[], none, ⟨[]⟩⟩).2.2.map Prod.fst
          ++ llm.errorPayloads
            (llm.recorded llm.unmarshalCompact
              (llm.streaming [ascii "data: " ++ llm.compactChunk (ascii "p"),
                              ascii "data: " ++ llm.compactChunk (ascii "o"),
                              ascii "data: " ++ llm.compactChunk (ascii "n"),
                              ascii "data: " ++ llm.compactChunk (ascii "g"),
                              ascii "data: [DONE]"])
              (ascii "ping") (fun token w => message.Write w token)
              ⟨[], none, ⟨[]⟩⟩).2.1
          ++ [[]]).map message.frame).flatten := by
    decide
  rw [hbytes]
  exact hpre

end server

namespace benchmark

theorem frames_length (payloads : List Bytes) :
    payloads.length ≤ ((payloads.map message.frame).flatten).length := by
  induction payloads with
  | nil => simp
  | cons p ps ih =>
    simp only [List.map_cons, List.flatten_cons, List.length_append, List.length_cons]
    have : 1 ≤ (message.frame p).length := by
      simp only [message.frame, List.length_append, List.length_singleton]
      omega
    omega

/-- The read loop on a response made of frames only: every frame, whatever its
payload, counts as one token, and the loop ends normally at the end of stream. -/
theorem readTokens_frames (clock : Nat → Int) (start count : Int) (payloads : List Bytes)
    (hsize : ∀ p ∈ payloads, (p.length : Int) ≤ message.MaxSize) :
    ∀ (fuel tick : Nat) (res : Result) (lastToken : Int), payloads.length < fuel →
      ∃ r, readTokens clock start count fuel ((payloads.map message.frame).flatten) tick res
              lastToken = some (.ok r) ∧
        r.TokenCount = res.TokenCount + (payloads.length : Int) ∧
        r.BytesReceived = count := by
  induction payloads with
  | nil =>
    intro fuel tick res lastToken hfuel
    cases fuel with
    | zero => omega
    | succ f =>
      refine ⟨{ res with BytesReceived := count, TotalTime := clock tick - start }, ?_, ?_, ?_⟩
      · show readTokens clock start count (f + 1) [] tick res lastToken = _
        rw [readTokens]
        rfl
      · simp
      · rfl
  | cons p ps ih =>
    intro fuel tick res lastToken hfuel
    cases fuel with
    | zero => omega
    | succ f =>
      have hp := hsize p (List.mem_cons_self _ _)
      have hread := message.Read_frame p ((ps.map message.frame).flatten) hp
      simp only [List.map_cons, List.flatten_cons]
      rw [readTokens, hread]
      simp only
      obtain ⟨r, h1, h2, h3⟩ := ih (fun q hq => hsize q (List.mem_cons_of_mem _ hq)) f (tick + 1)
        { (if res.TokenCount = 0 then { res with TTFT := clock tick - start }
            else { res with TotalInterTokenTime :=
                    res.TotalInterTokenTime + (clock tick - lastToken) }) with
          TokenCount := (if res.TokenCount = 0 then { res with TTFT := clock tick - start }
            else { res with TotalInterTokenTime :=
                    res.TotalInterTokenTime + (clock tick - lastToken) }).TokenCount + 1 }
        (clock tick) (by simp only [List.length_cons] at hfuel; omega)
      refine ⟨r, h1, ?_, h3⟩
      rw [h2]
      simp only [List.length_cons]
      split <;> simp <;> ring

/-- The WebTransport runner on a response made of frames only (no larger than
`MaxSize`), with no network error: the run succeeds and `TokenCount` is the
number of frames, empty frames included. -/
theorem Run_counts_frames (clock : Nat → Int) (reuse : Bool) (prompt : Bytes)
    (payloads : List Bytes) (hsize : ∀ p ∈ payloads, (p.length : Int) ≤ message.MaxSize) :
    ∃ r, Run clock reuse ⟨none, none, Writer.unbounded, none,
            (payloads.map message.frame).flatten⟩ prompt = some (.ok r) ∧
      r.TokenCount = (payloads.length : Int) := by
  obtain ⟨r, h1, h2, -⟩ := readTokens_frames clock (clock 0)
    (((payloads.map message.frame).flatten).length : Int) payloads hsize
    (((payloads.map message.frame).flatten).length + 1) 1 ⟨0, 0, 0, 0, 0⟩ 0
    (by have := frames_length payloads; omega)
  refine ⟨r, ?_, by rw [h2]; simp⟩
  unfold Run
  have hw : (message.Write Writer.unbounded prompt).2 = none := by
    rw [message.Write_unlimited _ _ rfl]
  simp only [hw]
  cases reuse <;> exact h1

/-- The read loop always ends within `reader.length + 1` iterations. -/
theorem readTokens_total (clock : Nat → Int) (start count : Int) :
    ∀ (fuel : Nat) (reader : Bytes) (tick : Nat) (res : Result) (lastToken : Int),
      reader.length < fuel →
      ∃ x, readTokens clock start count fuel reader tick res lastToken = some x := by
  intro fuel
  induction fuel with
  | zero => intro reader tick res lastToken h; omega
  | succ f ih =>
    intro reader tick res lastToken h
    rw [readTokens]
    rcases hrd : message.Read reader with ⟨out, r1⟩
    cases out with
    | panic => exact ⟨_, rfl⟩
    | error e =>
      cases e with
      | io e1 => cases e1 <;> exact ⟨_, rfl⟩
      | invalidLengthPrefix c => exact ⟨_, rfl⟩
      | tooLarge n => exact ⟨_, rfl⟩
    | value m =>
      have := message.Read_value_shorter reader m r1 hrd
      exact ih r1 _ _ _ (by omega)

/-- `Run` always returns a result, returns an error or panics: the bound on the
iterations of its read loop is never reached. -/
theorem Run_total (clock : Nat → Int) (reuse : Bool) (peer : Peer) (prompt : Bytes) :
    ∃ x, Run clock reuse peer prompt = some x := by
  unfold Run
  simp only
  split
  · exact ⟨_, rfl⟩
  · split
    · exact ⟨_, rfl⟩
    · split
      · exact ⟨_, rfl⟩
      · split
        · exact ⟨_, rfl⟩
        · exact readTokens_total clock _ _ _ _ _ _ _ (by omega)

/-- C4.  `webtransportRunner.Run` evaluated on the response `1:p1:o1:n1:g0:`
(the four token frames `p`, `o`, `n`, `g`, the empty frame, end of stream), with
the clock reading `k` at its `k`-th reading: the run succeeds with
`TokenCount = 5`, the empty frame being counted like a token. -/
theorem Run_counts_empty_frame :
    Run (fun k => (k : Int)) false ⟨none, none, Writer.unbounded, none, ascii "1:p1:o1:n1:g0:"⟩
        (ascii "ping")
      = some (.ok { BytesReceived := 14, TTFT := 1, TokenCount := 5,
                    TotalInterTokenTime := 4, TotalTime := 6 }) := by
  decide

end benchmark

namespace benchmark

end benchmark

namespace benchmark

theorem timingInv_init (clock : Nat → Int) : timingInv clock 1 ⟨0, 0, 0, 0, 0⟩ 0 := by
  refine ⟨by simp, by simp, fun _ => ⟨rfl, rfl⟩, ?_⟩
  intro h
  simp at h

theorem timingInv_step (clock : Nat → Int) (tick : Nat) (res : Result) (lastToken : Int)
    (h : timingInv clock tick res lastToken) :
    timingInv clock (tick + 1) (recordToken (clock 0) (clock tick) res lastToken)
      (clock tick) := by
  obtain ⟨h0, ht, hz, hp⟩ := h
  unfold recordToken
  by_cases hc : res.TokenCount = 0
  · have htick : tick = 1 := by omega
    subst htick
    obtain ⟨-, hi⟩ := hz hc
    simp only [if_pos hc]
    refine ⟨by simp [hc], by simp [hc], ?_, ?_⟩
    · intro h1
      simp [hc] at h1
    · intro _
      refine ⟨rfl, ?_, rfl⟩
      simp [hi]
  · have h1 : 1 ≤ res.TokenCount := by omega
    obtain ⟨ha, hb, hl⟩ := hp h1
    simp only [if_neg hc]
    refine ⟨by simp; omega, by simp; omega, ?_, ?_⟩
    · intro h2
      simp only at h2
      omega
    · intro _
      refine ⟨ha, ?_, by simp⟩
      simp only
      rw [hb]
      ring

theorem timingHolds_of_inv (clock : Nat → Int) (hmono : Monotone clock) (tick : Nat)
    (res : Result) (lastToken count : Int) (h : timingInv clock tick res lastToken)
    (h1 : 1 ≤ res.TokenCount) :
    timingHolds clock { res with BytesReceived := count, TotalTime := clock tick - clock 0 } := by
  obtain ⟨h0, ht, -, hp⟩ := h
  obtain ⟨ha, hb, hl⟩ := hp h1
  have hn : res.TokenCount.toNat = tick - 1 := by omega
  have htk : tick = (tick - 1) + 1 := by omega
  have m1 : clock 1 ≤ clock tick := hmono (by omega)
  have m2 : clock (tick - 1) ≤ clock tick := hmono (by omega)
  have m3 : clock 0 ≤ clock 1 := hmono (by omega)
  unfold timingHolds
  simp only [hn]
  rw [← htk, ha, hb, hl]
  refine ⟨by ring, rfl, by omega, by omega⟩

theorem rawScan_inv (unmarshal : Bytes → Option chatChunk) (clock : Nat → Int)
    (lines : List Bytes) :
    ∀ (tick : Nat) (res : Result) (lastToken : Int), timingInv clock tick res lastToken →
      ∃ last1, timingInv clock (rawScan unmarshal clock (clock 0) lines tick res lastToken).2
        (rawScan unmarshal clock (clock 0) lines tick res lastToken).1 last1 := by
  induction lines with
  | nil => intro tick res lastToken h; exact ⟨lastToken, h⟩
  | cons line rest ih =>
    intro tick res lastToken h
    rw [rawScan]
    split
    · exact ih _ _ _ h
    · simp only
      split
      · exact ⟨lastToken, h⟩
      · split
        · exact ih _ _ _ h
        · split
          · exact ih _ _ _ h
          · split
            · exact ih _ _ _ h
            · exact ih _ _ _ (timingInv_step clock tick res lastToken h)

theorem sseScan_inv (clock : Nat → Int) (lines : List Bytes) :
    ∀ (tick : Nat) (res : Result) (lastToken : Int), timingInv clock tick res lastToken →
      ∃ last1, timingInv clock (sseScan clock (clock 0) lines tick res lastToken).2
        (sseScan clock (clock 0) lines tick res lastToken).1 last1 := by
  induction lines with
  | nil => intro tick res lastToken h; exact ⟨lastToken, h⟩
  | cons line rest ih =>
    intro tick res lastToken h
    rw [sseScan]
    split
    · exact ih _ _ _ h
    · simp only
      split
      · exact ⟨lastToken, h⟩
      · exact ih _ _ _ (timingInv_step clock tick res lastToken h)

theorem readTokens_inv (clock : Nat → Int) (count : Int) :
    ∀ (fuel : Nat) (reader : Bytes) (tick : Nat) (res : Result) (lastToken : Int) (r : Result),
      timingInv clock tick res lastToken →
      readTokens clock (clock 0) count fuel reader tick res lastToken = some (.ok r) →
      ∃ tick1 res1 last1, timingInv clock tick1 res1 last1 ∧
        r = { res1 with BytesReceived := count, TotalTime := clock tick1 - clock 0 } := by
  intro fuel
  induction fuel with
  | zero =>
    intro reader tick res lastToken r _ h
    simp [readTokens] at h
  | succ f ih =>
    intro reader tick res lastToken r hinv h
    rw [readTokens] at h
    rcases hrd : message.Read reader with ⟨out, r1⟩
    rw [hrd] at h
    cases out with
    | panic => simp at h
    | error e =>
      cases e with
      | io e1 =>
        cases e1 with
        | EOF =>
          simp only [Option.some.injEq, RunResult.ok.injEq] at h
          exact ⟨tick, res, lastToken, hinv, h.symm⟩
        | ErrUnexpectedEOF => simp at h
      | invalidLengthPrefix c => simp at h
      | tooLarge n => simp at h
    | value m =>
      simp only at h
      exact ih r1 (tick + 1) _ (clock tick) r (timingInv_step clock tick res lastToken hinv) h

/-- C11.  With clock readings that never decrease, every successful run of each
of the three runners (WebTransport, raw API, HTTP SSE) that counted at least one
token satisfies: `TTFT + TotalInterTokenTime` is the time from the start to the
last token, `TotalTime` is the time from the start to the end, and so
`TTFT ≤ TotalTime` and `TotalInterTokenTime ≤ TotalTime`. -/
theorem Run_timing (clock : Nat → Int) (hmono : Monotone clock) :
    (∀ (reuse : Bool) (peer : Peer) (prompt : Bytes) (res : Result),
      Run clock reuse peer prompt = some (.ok res) → 1 ≤ res.TokenCount →
      timingHolds clock res) ∧
    (∀ (unmarshal : Bytes → Option chatChunk) (post : Bytes → Except GoError Body)
      (prompt : Bytes) (res : Result),
      rawAPIRunner.Run unmarshal clock post prompt = (res, none) → 1 ≤ res.TokenCount →
      timingHolds clock res) ∧
    (∀ (post : Bytes → Except GoError Body) (prompt : Bytes) (res : Result),
      httpSSERunner.Run clock post prompt = (res, none) → 1 ≤ res.TokenCount →
      timingHolds clock res) := by
  refine ⟨?_, ?_, ?_⟩
  · intro reuse peer prompt res hrun h1
    unfold Run at hrun
    simp only at hrun
    split at hrun
    · simp at hrun
    · split at hrun
      · simp at hrun
      · split at hrun
        · simp at hrun
        · split at hrun
          · simp at hrun
          · obtain ⟨tick1, res1, last1, hinv, hr⟩ :=
              readTokens_inv clock _ _ _ _ _ _ res (timingInv_init clock) hrun
            subst hr
            exact timingHolds_of_inv clock hmono tick1 res1 last1 _ hinv h1
  · intro unmarshal post prompt res hrun h1
    unfold rawAPIRunner.Run at hrun
    simp only at hrun
    cases hp : post prompt with
    | error err => rw [hp] at hrun; simp at hrun
    | ok body =>
      rw [hp] at hrun
      simp only [Prod.mk.injEq] at hrun
      obtain ⟨last1, hinv⟩ :=
        rawScan_inv unmarshal clock body.lines 1 ⟨0, 0, 0, 0, 0⟩ 0 (timingInv_init clock)
      rw [← hrun.1] at h1 ⊢
      exact timingHolds_of_inv clock hmono _ _ last1 _ hinv h1
  · intro post prompt res hrun h1
    unfold httpSSERunner.Run at hrun
    simp only at hrun
    cases hp : post prompt with
    | error err => rw [hp] at hrun; simp at hrun
    | ok body =>
      rw [hp] at hrun
      simp only [Prod.mk.injEq] at hrun
      obtain ⟨last1, hinv⟩ :=
        sseScan_inv clock body.lines 1 ⟨0, 0, 0, 0, 0⟩ 0 (timingInv_init clock)
      rw [← hrun.1] at h1 ⊢
      exact timingHolds_of_inv clock hmono _ _ last1 _ hinv h1

theorem steadyClock_monotone : Monotone steadyClock := by
  intro a b h
  unfold steadyClock
  have : (a : Int) ≤ (b : Int) := by exact_mod_cast h
  omega

theorem Run_timing_witness :
    Monotone steadyClock ∧
    (Run steadyClock false ⟨none, none, Writer.unbounded, none, ascii "1:p1:o1:n1:g"⟩
        (ascii "ping") = some (.ok ⟨12, 25, 4, 75, 125⟩) ∧
      timingHolds steadyClock ⟨12, 25, 4, 75, 125⟩) ∧
    (rawAPIRunner.Run unmarshalCompact steadyClock
        (answering [ascii "data: " ++ llm.compactChunk (ascii "he"), [],
                    ascii "data: " ++ llm.compactChunk (ascii "llo"), ascii "data: [DONE]"] 108)
        (ascii "hi") = (⟨108, 25, 2, 25, 75⟩, none) ∧
      timingHolds steadyClock ⟨108, 25, 2, 25, 75⟩) ∧
    (httpSSERunner.Run steadyClock
        (answering [ascii "data: hel", [], ascii "data: lo", [], ascii "data: [DONE]"] 35)
        (ascii "hi") = (⟨35, 25, 2, 25, 75⟩, none) ∧
      timingHolds steadyClock ⟨35, 25, 2, 25, 75⟩) :=
  ⟨steadyClock_monotone,
    ⟨by decide,
      (Run_timing steadyClock steadyClock_monotone).1 false
        ⟨none, none, Writer.unbounded, none, ascii "1:p1:o1:n1:g"⟩ (ascii "ping")
        ⟨12, 25, 4, 75, 125⟩ (by decide) (by decide)⟩,
    ⟨by decide,
      (Run_timing steadyClock steadyClock_monotone).2.1 unmarshalCompact
        (answering [ascii "data: " ++ llm.compactChunk (ascii "he"), [],
                    ascii "data: " ++ llm.compactChunk (ascii "llo"), ascii "data: [DONE]"] 108)
        (ascii "hi") ⟨108, 25, 2, 25, 75⟩ (by decide) (by decide)⟩,
    ⟨by decide,
      (Run_timing steadyClock steadyClock_monotone).2.2
        (answering [ascii "data: hel", [], ascii "data: lo", [], ascii "data: [DONE]"] 35)
        (ascii "hi") ⟨35, 25, 2, 25, 75⟩ (by decide) (by decide)⟩⟩

end benchmark

namespace message

/-- A payload `Read` returns is never longer than `MaxSize`. -/
theorem Read_value_length (r m r1 : Bytes) (h : Read r = (.value m, r1)) :
    (m.length : Int) ≤ MaxSize := by
  unfold Read at h
  split at h
  · simp at h
  · split at h
    · simp at h
    · split at h
      · simp at h
      · split at h
        · simp at h
        · rename_i n hbig hneg
          unfold ReadFull at h
          split at h
          · simp at h
          · rename_i buf r2 heq
            simp only [Prod.mk.injEq, ReadResult.value.injEq] at h
            obtain ⟨hm, -⟩ := h
            subst hm
            split at heq
            · simp only [Prod.mk.injEq] at heq
              rw [← heq.1, List.length_take]
              omega
            · split at heq <;> simp at heq

/-- C12.  When the stream ends before any `:` is seen (no byte at all, or bytes
without a `:` such as `12`), `message.Read` returns the error `io.EOF` itself,
having consumed the stream: not an invalid-length-prefix error and not a
payload. -/
theorem Read_eof_before_colon (r : Bytes) (h : 58 ∉ r) :
    Read r = (.error (.io .EOF), []) ∧
    (∀ cause, (Read r).1 ≠ .error (.invalidLengthPrefix cause)) ∧
    (∀ msg, (Read r).1 ≠ .value msg) := by
  have hread : Read r = (.error (.io .EOF), []) := by
    unfold Read
    rw [ReadString_eof 58 r h]
  rw [hread]
  exact ⟨rfl, by intro c; simp, by intro m; simp⟩

theorem Read_eof_before_colon_witness :
    (58 ∉ ascii "12" ∧ Read (ascii "12") = (.error (.io .EOF), [])) ∧
    (58 ∉ ([] : Bytes) ∧ Read [] = (.error (.io .EOF), [])) :=
  ⟨⟨by decide, (Read_eof_before_colon (ascii "12") (by decide)).1⟩,
    ⟨by decide, (Read_eof_before_colon [] (by decide)).1⟩⟩

end message

namespace llm

/-- C13.  `StreamChatCompletion` evaluated on a 200 body whose only line is the
six bytes `junk: ` followed by a chunk object carrying the content `leak`: the
line does not start with `data: `, yet `leak` is handed to `onToken` and the
stats count the line (49 bytes received, 4 bytes sent).  The raw-API runner of
the benchmark, which parses the same format, counts no token for this line. -/
theorem StreamChatCompletion_six_bytes_skipped :
    ¬ ascii "data: " <+: ascii "junk: " ++ compactChunk (ascii "leak") ∧
    recorded unmarshalCompact (streaming [ascii "junk: " ++ compactChunk (ascii "leak")])
        (ascii "hi") discard ()
      = (⟨49, 4, 0, 0⟩, none, [(ascii "leak", none)]) ∧
    (benchmark.rawAPIRunner.Run benchmark.unmarshalCompact benchmark.steadyClock
        (benchmark.answering [ascii "junk: " ++ compactChunk (ascii "leak")] 49)
        (ascii "hi")).1.TokenCount = 0 := by
  decide

end llm

namespace server

/-- C14.  `message.Read` evaluated on streams whose length prefix is negative:
on `-7:payload` and on `-1:` the call neither returns a payload nor an error, it
panics when allocating the buffer; the server goroutine reading `-1:` from a
stream ends in that panic, and so does the benchmark runner reading `-1:` as
response. -/
theorem Read_negative_length :
    message.Read (ascii "-7:payload") = (.panic, ascii "payload") ∧
    message.Read (ascii "-1:") = (.panic, []) ∧
    handleStream llm.unmarshalCompact (fun _ => llm.streaming []) (ascii "-1:") Writer.unbounded
      = some (Writer.unbounded, .panicked) ∧
    benchmark.Run benchmark.steadyClock false ⟨none, none, Writer.unbounded, none, ascii "-1:"⟩
        (ascii "ping") = some .panic := by
  decide

end server


end LlmWebtransport
